import Mathlib

/-!
Verification development for a byte-level BPE tokenizer.

The development shallowly embeds the two Python variants of the repository:
the core pre-tokenizing tokenizer (bpe_tokeniser.py) and the stream-only
variant (tokeniser.py).  Python dictionaries are modelled as insertion-ordered
association lists (a Python dict iterates its keys in insertion order, and
updating an existing key keeps its position), text is a list of Unicode scalar
values, and byte strings are lists of naturals below 256.  Python `max(d,
key=d.get)` and `min(d, key=...)` return the first key attaining the optimum,
which the models below reproduce.
-/

set_option maxRecDepth 8000

namespace BPE

/-- Update an insertion-ordered counts table: add `n` to the count of `k`,
keeping the position of an existing key, appending a fresh key at the end.
This is `d[k] = d.get(k, 0) + n` on a Python dict. -/
def bump {α : Type} [DecidableEq α] (acc : List (α × Nat)) (k : α) (n : Nat) :
    List (α × Nat) :=
  if acc.any (fun kv => decide (kv.1 = k)) then
    acc.map (fun kv => if kv.1 = k then (kv.1, kv.2 + n) else kv)
  else acc ++ [(k, n)]

/-- Adjacent pairs of a token list, in order: `zip(ids, ids[1:])`. -/
def adjPairs : List Nat → List (Nat × Nat)
  | a :: b :: rest => (a, b) :: adjPairs (b :: rest)
  | _ => []

/-- Replace every (left-to-right, non-overlapping) occurrence of the pair `p`
by the single id `idx`: the `_merge_pair` helper of both source files. -/
def mergePair (ids : List Nat) (p : Nat × Nat) (idx : Nat) : List Nat :=
  match ids with
  | a :: b :: rest =>
    if a = p.1 ∧ b = p.2 then idx :: mergePair rest p idx
    else a :: mergePair (b :: rest) p idx
  | short => short

/-- Frequency table of adjacent pairs of a flat id stream, keys in first
occurrence order: the `_get_stats` helper of both source files. -/
def getStats (ids : List Nat) : List ((Nat × Nat) × Nat) :=
  (adjPairs ids).foldl (fun acc p => bump acc p 1) []

/-- Weighted pair statistics of `_get_pair_stats` (bpe_tokeniser.py): pairs
inside each chunk split, weighted by the chunk frequency.  The source looks
up `splits[word]` while iterating `word_freqs`; the two tables always hold
the same keys in the same order, so the lookup is modelled by zipping. -/
def pairStats (wf : List (List Nat × Nat)) (splits : List (List Nat)) :
    List ((Nat × Nat) × Nat) :=
  (wf.zip splits).foldl
    (fun acc ws => (adjPairs ws.2).foldl (fun a p => bump a p ws.1.2) acc) []

/-- Lookup in the merge-rule table (`self.merges.get(pair)` on the dict). -/
def lookupPair (ms : List ((Nat × Nat) × Nat)) (p : Nat × Nat) : Option Nat :=
  match ms with
  | [] => none
  | (q, v) :: rest => if q = p then some v else lookupPair rest p

/-- Strict comparison of merge ranks, a missing rule counting as infinite
(`self.merges.get(p, float("inf"))`). -/
def optLt : Option Nat → Option Nat → Bool
  | none, _ => false
  | some _, none => true
  | some a, some b => decide (a < b)

/-- Python `min(keys, key=lambda p: merges.get(p, inf))`: the first key
attaining the minimal rank; `none` when the key list is empty, where the
Python `min` raises `ValueError`. -/
def minByRank (ms : List ((Nat × Nat) × Nat)) :
    List (Nat × Nat) → Option (Nat × Nat)
  | [] => none
  | k :: ks =>
    some (ks.foldl
      (fun best q => if optLt (lookupPair ms q) (lookupPair ms best) then q else best) k)

/-- Python `max(stats, key=stats.get)`: the first key attaining the maximal
count, `none` on the empty table. -/
def maxByVal (l : List ((Nat × Nat) × Nat)) : Option (Nat × Nat) :=
  match l with
  | [] => none
  | kv :: rest =>
    some (rest.foldl (fun best e => if best.2 < e.2 then e else best) kv).1

/-! ## UTF-8 -/

/-- Unicode scalar values: code points outside the surrogate range. -/
def ValidScalar (c : Nat) : Prop := c < 1114112 ∧ (c < 55296 ∨ 57344 ≤ c)

instance (c : Nat) : Decidable (ValidScalar c) := by
  unfold ValidScalar; infer_instance

/-- Text encodable in UTF-8: every element is a Unicode scalar value. -/
def ValidText (s : List Nat) : Prop := ∀ c ∈ s, ValidScalar c

instance (s : List Nat) : Decidable (ValidText s) := by
  unfold ValidText; infer_instance

/-- UTF-8 encoding of one scalar value. -/
def utf8EncodeChar (c : Nat) : List Nat :=
  if c < 128 then [c]
  else if c < 2048 then [192 + c / 64, 128 + c % 64]
  else if c < 65536 then [224 + c / 4096, 128 + c / 64 % 64, 128 + c % 64]
  else [240 + c / 262144, 128 + c / 4096 % 64, 128 + c / 64 % 64, 128 + c % 64]

/-- UTF-8 encoding of a text (`text.encode("utf-8")`). -/
def utf8Encode (s : List Nat) : List Nat := (s.map utf8EncodeChar).flatten

/-- UTF-8 continuation byte test. -/
def IsCont (b : Nat) : Prop := 128 ≤ b ∧ b < 192

instance (b : Nat) : Decidable (IsCont b) := by
  unfold IsCont; infer_instance

/-- Admissible first continuation byte after the given lead byte, following
the maximal-subpart policy of `bytes.decode("utf-8", errors="replace")`. -/
def GoodB1 (b b1 : Nat) : Prop :=
  if b = 224 then 160 ≤ b1 ∧ b1 < 192
  else if b = 237 then 128 ≤ b1 ∧ b1 < 160
  else if b = 240 then 144 ≤ b1 ∧ b1 < 192
  else if b = 244 then 128 ≤ b1 ∧ b1 < 144
  else IsCont b1

instance (b b1 : Nat) : Decidable (GoodB1 b b1) := by
  unfold GoodB1; infer_instance

/-- UTF-8 decoding with replacement (`bytes.decode("utf-8", errors="replace")`):
total on every byte list, substituting U+FFFD (65533) for invalid
subsequences, never failing. -/
def utf8DecodeReplace : List Nat → List Nat
  | [] => []
  | b :: bs =>
    if b < 128 then b :: utf8DecodeReplace bs
    else if b < 194 then 65533 :: utf8DecodeReplace bs
    else if b < 224 then
      match bs with
      | [] => [65533]
      | b1 :: r =>
        if IsCont b1 then ((b - 192) * 64 + (b1 - 128)) :: utf8DecodeReplace r
        else 65533 :: utf8DecodeReplace (b1 :: r)
    else if b < 240 then
      match bs with
      | [] => [65533]
      | b1 :: r =>
        if GoodB1 b b1 then
          match r with
          | [] => [65533]
          | b2 :: r2 =>
            if IsCont b2 then
              ((b - 224) * 4096 + (b1 - 128) * 64 + (b2 - 128)) :: utf8DecodeReplace r2
            else 65533 :: utf8DecodeReplace (b2 :: r2)
        else 65533 :: utf8DecodeReplace (b1 :: r)
    else if b < 245 then
      match bs with
      | [] => [65533]
      | b1 :: r =>
        if GoodB1 b b1 then
          match r with
          | [] => [65533]
          | b2 :: r2 =>
            if IsCont b2 then
              match r2 with
              | [] => [65533]
              | b3 :: r3 =>
                if IsCont b3 then
                  ((b - 240) * 262144 + (b1 - 128) * 4096 + (b2 - 128) * 64 + (b3 - 128)) ::
                    utf8DecodeReplace r3
                else 65533 :: utf8DecodeReplace (b3 :: r3)
            else 65533 :: utf8DecodeReplace (b2 :: r2)
        else 65533 :: utf8DecodeReplace (b1 :: r)
    else 65533 :: utf8DecodeReplace bs

/-! ## Pre-tokenizer

The GPT-2 pattern
`'s|'t|'re|'ve|'m|'ll|'d| ?\p{L}+| ?\p{N}+| ?[^\s\p{L}\p{N}]+|\s+(?!\S)|\s+`
is embedded as ordered alternation with greedy runs and one-character
backtracking for the lookahead branch, exactly as a Perl-style engine
executes it.  The three Unicode character classes are abstracted as an
explicit classifier so every theorem holds for any classification. -/

/-- Character classifier: whitespace (`\s`), letter (`\p{L}`), number (`\p{N}`). -/
structure CharClasses where
  isSp : Nat → Bool
  isL : Nat → Bool
  isN : Nat → Bool

/-- Greedy run of characters satisfying `p`: returns the run and the rest. -/
def runOf (p : Nat → Bool) : List Nat → List Nat × List Nat
  | [] => ([], [])
  | c :: cs =>
    if p c then
      let pr := runOf p cs
      (c :: pr.1, pr.2)
    else ([], c :: cs)

/-- Characters in the class `[^\s\p{L}\p{N}]`. -/
def isOther (cc : CharClasses) (c : Nat) : Bool :=
  !cc.isSp c && !cc.isL c && !cc.isN c

/-- Match one of the literal contraction suffixes at the head of the input:
the alternatives `'s|'t|'re|'ve|'m|'ll|'d`, tried in order
(39 is the apostrophe, the other numbers the relevant letters). -/
def tryContraction : List Nat → Option (List Nat × List Nat)
  | 39 :: 115 :: rest => some ([39, 115], rest)
  | 39 :: 116 :: rest => some ([39, 116], rest)
  | 39 :: 114 :: 101 :: rest => some ([39, 114, 101], rest)
  | 39 :: 118 :: 101 :: rest => some ([39, 118, 101], rest)
  | 39 :: 109 :: rest => some ([39, 109], rest)
  | 39 :: 108 :: 108 :: rest => some ([39, 108, 108], rest)
  | 39 :: 100 :: rest => some ([39, 100], rest)
  | _ => none

/-- Match ` ?X+` for the class `p` (32 is the literal space): greedily try the
optional leading space, falling back to a run starting at the first char. -/
def trySpaceRun (p : Nat → Bool) : List Nat → Option (List Nat × List Nat)
  | [] => none
  | c :: cs =>
    if c = 32 then
      match cs with
      | x :: _ =>
        if p x then
          let pr := runOf p cs
          some (32 :: pr.1, pr.2)
        else if p c then some (runOf p (c :: cs)) else none
      | [] => if p c then some (runOf p (c :: cs)) else none
    else if p c then some (runOf p (c :: cs)) else none

/-- Match `\s+(?!\S)`: a greedy whitespace run whose lookahead requires the
next character not to be non-whitespace; on lookahead failure the engine
backtracks by one character, and fails if the run is then empty. -/
def trySpaceNotS (isSp : Nat → Bool) (l : List Nat) :
    Option (List Nat × List Nat) :=
  match l with
  | [] => none
  | c :: cs =>
    if isSp c then
      let pr := runOf isSp (c :: cs)
      match pr.2 with
      | [] => some (pr.1, [])
      | _ =>
        if 2 ≤ pr.1.length then
          some (pr.1.take (pr.1.length - 1), pr.1.drop (pr.1.length - 1) ++ pr.2)
        else none
    else none

/-- One leftmost match of the GPT-2 pattern: ordered alternation over the
seven branches, with a total fallback that is unreachable because the last
two branches cover every character. -/
def nextChunk (cc : CharClasses) (l : List Nat) : List Nat × List Nat :=
  match tryContraction l with
  | some r => r
  | none =>
  match trySpaceRun cc.isL l with
  | some r => r
  | none =>
  match trySpaceRun cc.isN l with
  | some r => r
  | none =>
  match trySpaceRun (isOther cc) l with
  | some r => r
  | none =>
  match trySpaceNotS cc.isSp l with
  | some r => r
  | none =>
  match l with
  | [] => ([], [])
  | c :: cs => if cc.isSp c then runOf cc.isSp (c :: cs) else ([c], cs)

/-- Fuelled iteration of `nextChunk` (each chunk is nonempty, so the input
length is enough fuel): the model of `re.findall(self.pat, text)`. -/
def pretokenizeF (cc : CharClasses) : Nat → List Nat → List (List Nat)
  | 0, _ => []
  | _, [] => []
  | fuel + 1, c :: cs =>
    let pr := nextChunk cc (c :: cs)
    pr.1 :: pretokenizeF cc fuel pr.2

/-- Split a text into pre-tokenization chunks. -/
def pretokenize (cc : CharClasses) (l : List Nat) : List (List Nat) :=
  pretokenizeF cc l.length l

/-- ASCII instantiation of the character classes, used for concrete runs. -/
def asciiCC : CharClasses where
  isSp c := c = 9 || c = 10 || c = 11 || c = 12 || c = 13 || c = 32
  isL c := (65 ≤ c && c ≤ 90) || (97 ≤ c && c ≤ 122)
  isN c := 48 ≤ c && c ≤ 57

/-! ## Training (bpe_tokeniser.py `Tokenizer.train`) -/

/-- The 256 single-byte seed entries of the vocabulary (`_build_vocab`).
Minted ids are appended in order, so the vocabulary is the list whose index
is the token id. -/
def initVocab : List (List Nat) := (List.range 256).map (fun i => [i])

/-- Trained tokenizer state: the ordered merge-rule table and the vocabulary. -/
structure BPEState where
  merges : List ((Nat × Nat) × Nat)
  vocab : List (List Nat)
deriving DecidableEq

/-- Per-iteration state of the training loop. -/
structure LoopSt where
  splits : List (List Nat)
  merges : List ((Nat × Nat) × Nat)
  vocab : List (List Nat)
  iter : Nat
deriving DecidableEq

/-- Word frequency table of the pre-tokenized corpus: for each distinct
byte-encoded chunk, its occurrence count, in first occurrence order. -/
def countFreqs (chunks : List (List Nat)) : List (List Nat × Nat) :=
  chunks.foldl (fun acc c => bump acc c 1) []

/-- One iteration of the training loop: compute the weighted pair statistics,
stop if empty, otherwise choose the best pair, mint id `256 + i`, rewrite all
splits, record the rule and extend the vocabulary by the concatenation of the
two constituent byte spans. -/
def trainStep (wf : List (List Nat × Nat)) (st : LoopSt) : Option LoopSt :=
  match maxByVal (pairStats wf st.splits) with
  | none => none
  | some p =>
    let nid := 256 + st.iter
    some
      { splits := st.splits.map (fun s => mergePair s p nid)
        merges := st.merges ++ [(p, nid)]
        vocab := st.vocab ++ [(st.vocab[p.1]?).getD [] ++ (st.vocab[p.2]?).getD []]
        iter := st.iter + 1 }

/-- The training loop, running at most `n` iterations (`for i in range(num_merges)`),
stopping early when no pair is left. -/
def trainLoop (wf : List (List Nat × Nat)) : Nat → LoopSt → LoopSt
  | 0, st => st
  | n + 1, st =>
    match trainStep wf st with
    | none => st
    | some st1 => trainLoop wf n st1

/-- Full training of a fresh tokenizer (`Tokenizer().train(text, vocab_size)`):
a target size of at most 256 performs zero iterations; otherwise the corpus is
pre-tokenized, each distinct chunk seeded with its raw byte list, and the loop
runs `vocab_size - 256` times. -/
def bpeTrain (cc : CharClasses) (corpus : List Nat) (vocabSize : Int) : BPEState :=
  if vocabSize ≤ 256 then { merges := [], vocab := initVocab }
  else
    let chunks := (pretokenize cc corpus).map utf8Encode
    let wf := countFreqs chunks
    let fin := trainLoop wf (vocabSize - 256).toNat
      { splits := wf.map Prod.fst, merges := [], vocab := initVocab, iter := 0 }
    { merges := fin.merges, vocab := fin.vocab }

/-- Total number of tokens across all splits; each merge strictly decreases it. -/
def totalSize (splits : List (List Nat)) : Nat := (splits.map List.length).sum

/-- Number of merges available on a corpus: the merge count of a training run
with enough fuel that it can only stop because no pair is left. -/
def availMerges (cc : CharClasses) (corpus : List Nat) : Nat :=
  let chunks := (pretokenize cc corpus).map utf8Encode
  let wf := countFreqs chunks
  let st0 : LoopSt := { splits := wf.map Prod.fst, merges := [], vocab := initVocab, iter := 0 }
  (trainLoop wf (totalSize st0.splits + 1) st0).merges.length

/-! ## Encoding and decoding (bpe_tokeniser.py) -/

/-- One iteration of the per-chunk encode loop: with at least two tokens,
take the present pair of lowest rank; if it has a rule, apply it, otherwise
stop.  Returns the merged pair, its id and the new token list, or `none`
when the loop stops. -/
def encodeStep (ms : List ((Nat × Nat) × Nat)) (toks : List Nat) :
    Option ((Nat × Nat) × Nat × List Nat) :=
  if toks.length ≤ 1 then none
  else
    match minByRank ms ((getStats toks).map Prod.fst) with
    | none => none
    | some p =>
      match lookupPair ms p with
      | none => none
      | some v => some (p, v, mergePair toks p v)

/-- Fuelled encode loop for one chunk (`while len(tokens) > 1`). -/
def encodeChunkLoop (ms : List ((Nat × Nat) × Nat)) : Nat → List Nat → List Nat
  | 0, toks => toks
  | fuel + 1, toks =>
    match encodeStep ms toks with
    | none => toks
    | some r => encodeChunkLoop ms fuel r.2.2

/-- Encode the byte tokens of one chunk; every applied merge shortens the
list, so the initial length is enough fuel. -/
def encodeChunk (ms : List ((Nat × Nat) × Nat)) (toks : List Nat) : List Nat :=
  encodeChunkLoop ms toks.length toks

/-- `Tokenizer.encode`: pre-tokenize, encode each chunk from its UTF-8 bytes,
concatenate in chunk order. -/
def bpeEncode (cc : CharClasses) (st : BPEState) (text : List Nat) : List Nat :=
  ((pretokenize cc text).map (fun ch => encodeChunk st.merges (utf8Encode ch))).flatten

/-- `Tokenizer.decode`: look every id up in the vocabulary (a missing id is
the Python `KeyError`, modelled as `none`), concatenate the byte spans and
decode them as UTF-8 with replacement. -/
def bpeDecode (st : BPEState) (ids : List Nat) : Option (List Nat) :=
  match ids.mapM (fun i => st.vocab[i]?) with
  | none => none
  | some spans => some (utf8DecodeReplace spans.flatten)

/-! ## Stream-only variant (tokeniser.py `Tokenizer.encode`) -/

/-- Fuelled loop of the stream encoder (`while True`): compute the stats of
the whole stream, pick the present pair of lowest rank — the Python `min`
raises `ValueError` on an empty stats table, modelled as `none` — break when
its rank is infinite, otherwise merge and continue. -/
def sEncodeLoop (ms : List ((Nat × Nat) × Nat)) : Nat → List Nat → Option (List Nat)
  | 0, _ => none
  | fuel + 1, toks =>
    match minByRank ms ((getStats toks).map Prod.fst) with
    | none => none
    | some p =>
      match lookupPair ms p with
      | none => some toks
      | some v => sEncodeLoop ms fuel (mergePair toks p v)

/-- Stream-only `encode`: no pre-tokenization, the whole byte stream at once.
Each applied merge shortens the stream, so `length + 1` fuel always reaches
the break or the `ValueError`. -/
def sEncode (ms : List ((Nat × Nat) × Nat)) (text : List Nat) : Option (List Nat) :=
  sEncodeLoop ms ((utf8Encode text).length + 1) (utf8Encode text)

/-! ## Basic lemmas about merging and adjacent pairs -/

theorem mergePair_nil (p : Nat × Nat) (idx : Nat) : mergePair [] p idx = [] := rfl

theorem mergePair_single (a : Nat) (p : Nat × Nat) (idx : Nat) :
    mergePair [a] p idx = [a] := rfl

theorem mergePair_length_le (ids : List Nat) (p : Nat × Nat) (idx : Nat) :
    (mergePair ids p idx).length ≤ ids.length := by
  induction ids, p, idx using mergePair.induct with
  | case1 p idx a b rest h ih =>
    simp only [mergePair, if_pos h, List.length_cons]
    omega
  | case2 p idx a b rest h ih =>
    simp only [mergePair, if_neg h, List.length_cons]
    simp only [List.length_cons] at ih
    omega
  | case3 l p idx h =>
    rcases l with _ | ⟨a, _ | ⟨b, rest⟩⟩
    · simp [mergePair]
    · simp [mergePair]
    · exact absurd rfl (h a b rest)

theorem adjPairs_eq_nil_iff (l : List Nat) : adjPairs l = [] ↔ l.length ≤ 1 := by
  rcases l with _ | ⟨a, _ | ⟨b, rest⟩⟩ <;> simp [adjPairs]

theorem mem_adjPairs_cons {q : Nat × Nat} {c : Nat} {t : List Nat}
    (h : q ∈ adjPairs t) : q ∈ adjPairs (c :: t) := by
  rcases t with _ | ⟨d, t2⟩
  · simp [adjPairs] at h
  · simp only [adjPairs, List.mem_cons]
    exact Or.inr h

theorem mergePair_length_lt (ids : List Nat) (p : Nat × Nat) (idx : Nat) :
    p ∈ adjPairs ids → (mergePair ids p idx).length < ids.length := by
  induction ids, p, idx using mergePair.induct with
  | case1 p idx a b rest h ih =>
    intro hp
    have := mergePair_length_le rest p idx
    simp only [mergePair, if_pos h, List.length_cons]
    omega
  | case2 p idx a b rest h ih =>
    intro hp
    have hp2 : p ∈ adjPairs (b :: rest) := by
      rcases (List.mem_cons).1 hp with h1 | h1
      · exact absurd ⟨congrArg Prod.fst h1.symm, congrArg Prod.snd h1.symm⟩ h
      · exact h1
    have := ih hp2
    simp only [mergePair, if_neg h, List.length_cons]
    simp only [List.length_cons] at this
    omega
  | case3 l p idx h =>
    intro hp
    rcases l with _ | ⟨a, _ | ⟨b, rest⟩⟩
    · simp [adjPairs] at hp
    · simp [adjPairs] at hp
    · exact absurd rfl (h a b rest)

theorem mem_of_mem_mergePair {t : Nat} {ids : List Nat} {p : Nat × Nat} {idx : Nat} :
    t ∈ mergePair ids p idx → t ∈ ids ∨ t = idx := by
  induction ids, p, idx using mergePair.induct with
  | case1 p idx a b rest h1 ih =>
    intro h
    simp only [mergePair, if_pos h1, List.mem_cons] at h
    rcases h with h | h
    · exact Or.inr h
    · rcases ih h with h | h
      · exact Or.inl (by simp [h])
      · exact Or.inr h
  | case2 p idx a b rest h1 ih =>
    intro h
    simp only [mergePair, if_neg h1, List.mem_cons] at h
    rcases h with h | h
    · exact Or.inl (by simp [h])
    · rcases ih h with h | h
      · simp only [List.mem_cons] at h ⊢
        tauto
      · exact Or.inr h
  | case3 l p idx h1 =>
    intro h
    rcases l with _ | ⟨a, _ | ⟨b, rest⟩⟩
    · simp [mergePair] at h
    · simp only [mergePair] at h
      exact Or.inl h
    · exact absurd rfl (h1 a b rest)

theorem mergePair_cons_shape (c : Nat) (cs : List Nat) (p : Nat × Nat) (idx : Nat) :
    (∃ t, mergePair (c :: cs) p idx = c :: t) ∨
      (∃ t, mergePair (c :: cs) p idx = idx :: t) := by
  rcases cs with _ | ⟨d, rest⟩
  · exact Or.inl ⟨[], rfl⟩
  · by_cases h : c = p.1 ∧ d = p.2
    · exact Or.inr ⟨mergePair rest p idx, by simp [mergePair, h]⟩
    · exact Or.inl ⟨mergePair (d :: rest) p idx, by simp [mergePair, h]⟩

theorem adjPairs_mergePair {ids : List Nat} {p : Nat × Nat} {idx : Nat} :
    idx ≠ p.1 → idx ≠ p.2 →
    ∀ q ∈ adjPairs (mergePair ids p idx),
      (q ∈ adjPairs ids ∧ q ≠ p) ∨ q.1 = idx ∨ q.2 = idx := by
  induction ids, p, idx using mergePair.induct with
  | case1 p idx a b rest hm ih =>
    intro h1 h2 q hq
    have ih := ih h1 h2
    simp only [mergePair, if_pos hm] at hq
    rcases hr : mergePair rest p idx with _ | ⟨m0, mrest⟩
    · rw [hr] at hq; simp [adjPairs] at hq
    · rw [hr] at hq
      simp only [adjPairs, List.mem_cons] at hq
      rcases hq with hq | hq
      · exact Or.inr (Or.inl (by simp [hq]))
      · rw [← hr] at hq
        rcases ih q hq with ⟨hmem, hne⟩ | h
        · exact Or.inl ⟨mem_adjPairs_cons (mem_adjPairs_cons hmem), hne⟩
        · exact Or.inr h
  | case2 p idx a b rest hm ih =>
    intro h1 h2 q hq
    have ih := ih h1 h2
    simp only [mergePair, if_neg hm] at hq
    rcases mergePair_cons_shape b rest p idx with ⟨t, ht⟩ | ⟨t, ht⟩
    · rw [ht] at hq
      simp only [adjPairs, List.mem_cons] at hq
      rcases hq with hq | hq
      · refine Or.inl ⟨by simp [adjPairs, hq], ?_⟩
        subst hq
        intro hc
        exact hm ⟨congrArg Prod.fst hc, congrArg Prod.snd hc⟩
      · rw [← ht] at hq
        rcases ih q hq with ⟨hmem, hne⟩ | h
        · exact Or.inl ⟨mem_adjPairs_cons hmem, hne⟩
        · exact Or.inr h
    · rw [ht] at hq
      simp only [adjPairs, List.mem_cons] at hq
      rcases hq with hq | hq
      · exact Or.inr (Or.inr (by simp [hq]))
      · rw [← ht] at hq
        rcases ih q hq with ⟨hmem, hne⟩ | h
        · exact Or.inl ⟨mem_adjPairs_cons hmem, hne⟩
        · exact Or.inr h
  | case3 l p idx hl =>
    intro h1 h2 q hq
    rcases l with _ | ⟨a, _ | ⟨b, rest⟩⟩
    · simp [mergePair, adjPairs] at hq
    · simp [mergePair, adjPairs] at hq
    · exact absurd rfl (hl a b rest)

theorem not_mem_adjPairs_mergePair {ids : List Nat} {p : Nat × Nat} {idx : Nat}
    (h1 : idx ≠ p.1) (h2 : idx ≠ p.2) : p ∉ adjPairs (mergePair ids p idx) := by
  intro hc
  rcases adjPairs_mergePair h1 h2 p hc with ⟨_, hne⟩ | h | h
  · exact hne rfl
  · exact h1 h.symm
  · exact h2 h.symm

/-! ## Lemmas about the counts tables -/

theorem bump_keys {α : Type} [DecidableEq α] (acc : List (α × Nat)) (k : α) (n : Nat) :
    (bump acc k n).map Prod.fst = acc.map Prod.fst ++ [k] ∨
      ((bump acc k n).map Prod.fst = acc.map Prod.fst ∧ k ∈ acc.map Prod.fst) := by
  unfold bump
  split
  case isTrue h =>
    refine Or.inr ⟨?_, ?_⟩
    · rw [List.map_map]
      refine List.map_congr_left ?_
      intro kv _
      by_cases hk : kv.1 = k <;> simp [hk]
    · rcases List.any_eq_true.1 h with ⟨kv, hkv, he⟩
      exact List.mem_map.2 ⟨kv, hkv, of_decide_eq_true he⟩
  case isFalse h => simp

theorem mem_bump_keys {α : Type} [DecidableEq α] {x : α} (acc : List (α × Nat)) (k : α)
    (n : Nat) (hx : x ∈ acc.map Prod.fst ∨ x = k) : x ∈ (bump acc k n).map Prod.fst := by
  rcases bump_keys acc k n with h | ⟨h, hk⟩ <;> rw [h]
  · rcases hx with hx | hx
    · exact List.mem_append.2 (Or.inl hx)
    · exact List.mem_append.2 (Or.inr (by simp [hx]))
  · rcases hx with hx | hx
    · exact hx
    · rw [hx]; exact hk

theorem keys_bump_subset {α : Type} [DecidableEq α] {x : α} (acc : List (α × Nat)) (k : α)
    (n : Nat) (hx : x ∈ (bump acc k n).map Prod.fst) : x ∈ acc.map Prod.fst ∨ x = k := by
  rcases bump_keys acc k n with h | ⟨h, hk⟩ <;> rw [h] at hx
  · rcases List.mem_append.1 hx with hx | hx
    · exact Or.inl hx
    · exact Or.inr (by simpa using hx)
  · exact Or.inl hx

theorem keys_foldl_bump_subset {w : Nat} :
    ∀ (ps : List (Nat × Nat)) (acc : List ((Nat × Nat) × Nat)) (x : Nat × Nat),
      x ∈ ((ps.foldl (fun a p => bump a p w) acc).map Prod.fst) →
        x ∈ acc.map Prod.fst ∨ x ∈ ps := by
  intro ps
  induction ps with
  | nil => intro acc x hx; exact Or.inl hx
  | cons p ps ih =>
    intro acc x hx
    rcases ih (bump acc p w) x hx with h | h
    · rcases keys_bump_subset acc p w h with h | h
      · exact Or.inl h
      · exact Or.inr (by simp [h])
    · exact Or.inr (by simp [h])

theorem mem_keys_foldl_bump {w : Nat} :
    ∀ (ps : List (Nat × Nat)) (acc : List ((Nat × Nat) × Nat)) (x : Nat × Nat),
      (x ∈ acc.map Prod.fst ∨ x ∈ ps) →
        x ∈ ((ps.foldl (fun a p => bump a p w) acc).map Prod.fst) := by
  intro ps
  induction ps with
  | nil => intro acc x hx; simpa using hx.elim id (by simp)
  | cons p ps ih =>
    intro acc x hx
    refine ih (bump acc p w) x ?_
    rcases hx with h | h
    · exact Or.inl (mem_bump_keys acc p w (Or.inl h))
    · rcases List.mem_cons.1 h with h | h
      · exact Or.inl (mem_bump_keys acc p w (Or.inr h))
      · exact Or.inr h

theorem getStats_keys_subset {ids : List Nat} {x : Nat × Nat}
    (hx : x ∈ (getStats ids).map Prod.fst) : x ∈ adjPairs ids := by
  rcases keys_foldl_bump_subset (adjPairs ids) [] x hx with h | h
  · simp at h
  · exact h

theorem mem_getStats_keys {ids : List Nat} {x : Nat × Nat}
    (hx : x ∈ adjPairs ids) : x ∈ (getStats ids).map Prod.fst :=
  mem_keys_foldl_bump (adjPairs ids) [] x (Or.inr hx)

theorem pairStats_keys_subset {wf : List (List Nat × Nat)} {splits : List (List Nat)}
    {x : Nat × Nat} (hx : x ∈ (pairStats wf splits).map Prod.fst) :
    ∃ s ∈ splits, x ∈ adjPairs s := by
  unfold pairStats at hx
  have main : ∀ (z : List ((List Nat × Nat) × List Nat)) (acc : List ((Nat × Nat) × Nat)),
      x ∈ ((z.foldl (fun acc ws => (adjPairs ws.2).foldl (fun a p => bump a p ws.1.2) acc) acc).map
        Prod.fst) →
        x ∈ acc.map Prod.fst ∨ ∃ ws ∈ z, x ∈ adjPairs ws.2 := by
    intro z
    induction z with
    | nil => intro acc h; exact Or.inl h
    | cons ws z ih =>
      intro acc h
      rcases ih _ h with h | ⟨ws2, hm, hadj⟩
      · rcases keys_foldl_bump_subset (adjPairs ws.2) acc x h with h | h
        · exact Or.inl h
        · exact Or.inr ⟨ws, by simp, h⟩
      · exact Or.inr ⟨ws2, by simp [hm], hadj⟩
  rcases main (wf.zip splits) [] hx with h | ⟨ws, hm, hadj⟩
  · simp at h
  · exact ⟨ws.2, (List.of_mem_zip hm).2, hadj⟩

/-! ## Lemmas about lookup and the rank order -/

theorem lookupPair_mem {ms : List ((Nat × Nat) × Nat)} {p : Nat × Nat} {v : Nat}
    (h : lookupPair ms p = some v) : (p, v) ∈ ms := by
  induction ms with
  | nil => simp [lookupPair] at h
  | cons e rest ih =>
    rcases e with ⟨q, w⟩
    by_cases hq : q = p
    · simp only [lookupPair, if_pos hq, Option.some.injEq] at h
      subst hq; subst h; simp
    · simp only [lookupPair, if_neg hq] at h
      exact List.mem_cons.2 (Or.inr (ih h))

theorem lookupPair_eq_none_iff {ms : List ((Nat × Nat) × Nat)} {p : Nat × Nat} :
    lookupPair ms p = none ↔ p ∉ ms.map Prod.fst := by
  induction ms with
  | nil => simp [lookupPair]
  | cons e rest ih =>
    rcases e with ⟨q, w⟩
    by_cases hq : q = p
    · simp [lookupPair, hq]
    · simp [lookupPair, hq, ih, Ne.symm hq]

theorem lookupPair_isSome_of_mem {ms : List ((Nat × Nat) × Nat)} {p : Nat × Nat} {v : Nat}
    (h : (p, v) ∈ ms) : ∃ w, lookupPair ms p = some w := by
  rcases he : lookupPair ms p with _ | w
  · rw [lookupPair_eq_none_iff] at he
    exact absurd (List.mem_map.2 ⟨(p, v), h, rfl⟩) he
  · exact ⟨w, rfl⟩

theorem optLt_irrefl (x : Option Nat) : optLt x x = false := by
  cases x <;> simp [optLt]

theorem optLt_trans {x y z : Option Nat} (h1 : optLt x y = true) (h2 : optLt y z = true) :
    optLt x z = true := by
  cases x <;> cases y <;> cases z <;> simp [optLt] at * <;> omega

theorem optLt_false_trans {x y z : Option Nat} (h1 : optLt x y = false)
    (h2 : optLt x z = true) : optLt y z = true := by
  cases x <;> cases y <;> cases z <;> simp [optLt] at * <;> omega

theorem minByRank_spec {ms : List ((Nat × Nat) × Nat)} {keys : List (Nat × Nat)}
    {m : Nat × Nat} (h : minByRank ms keys = some m) :
    m ∈ keys ∧ ∀ q ∈ keys, optLt (lookupPair ms q) (lookupPair ms m) = false := by
  have main : ∀ (ks : List (Nat × Nat)) (b : Nat × Nat),
      (ks.foldl (fun best q =>
          if optLt (lookupPair ms q) (lookupPair ms best) then q else best) b = b ∨
        ks.foldl (fun best q =>
          if optLt (lookupPair ms q) (lookupPair ms best) then q else best) b ∈ ks) ∧
      optLt (lookupPair ms b)
        (lookupPair ms (ks.foldl (fun best q =>
          if optLt (lookupPair ms q) (lookupPair ms best) then q else best) b)) = false ∧
      ∀ q ∈ ks, optLt (lookupPair ms q)
        (lookupPair ms (ks.foldl (fun best q =>
          if optLt (lookupPair ms q) (lookupPair ms best) then q else best) b)) = false := by
    intro ks
    induction ks with
    | nil =>
      intro b
      refine ⟨Or.inl rfl, ?_, by simp⟩
      simp [optLt_irrefl]
    | cons q ks ih =>
      intro b
      by_cases hc : optLt (lookupPair ms q) (lookupPair ms b) = true
      · have step : (q :: ks).foldl (fun best q =>
            if optLt (lookupPair ms q) (lookupPair ms best) then q else best) b =
            ks.foldl (fun best q =>
              if optLt (lookupPair ms q) (lookupPair ms best) then q else best) q := by
          simp [List.foldl_cons, hc]
        rcases ih q with ⟨hmem, hq, hall⟩
        rw [step]
        refine ⟨?_, ?_, ?_⟩
        · rcases hmem with h | h
          · exact Or.inr (by simp [h])
          · exact Or.inr (by simp [h])
        · rcases hb : optLt (lookupPair ms b)
            (lookupPair ms (ks.foldl (fun best q =>
              if optLt (lookupPair ms q) (lookupPair ms best) then q else best) q)) with _ | _
          · rfl
          · exact absurd (optLt_trans hc hb) (by simp [hq])
        · intro x hx
          rcases List.mem_cons.1 hx with hx | hx
          · subst hx; exact hq
          · exact hall x hx
      · have hcf : optLt (lookupPair ms q) (lookupPair ms b) = false := by
          simpa using hc
        have step : (q :: ks).foldl (fun best q =>
            if optLt (lookupPair ms q) (lookupPair ms best) then q else best) b =
            ks.foldl (fun best q =>
              if optLt (lookupPair ms q) (lookupPair ms best) then q else best) b := by
          simp [List.foldl_cons, hcf]
        rcases ih b with ⟨hmem, hb, hall⟩
        rw [step]
        refine ⟨?_, hb, ?_⟩
        · rcases hmem with h | h
          · exact Or.inl h
          · exact Or.inr (by simp [h])
        · intro x hx
          rcases List.mem_cons.1 hx with hx | hx
          · subst hx
            rcases hq2 : optLt (lookupPair ms x)
              (lookupPair ms (ks.foldl (fun best q =>
                if optLt (lookupPair ms q) (lookupPair ms best) then q else best) b)) with _ | _
            · rfl
            · exact absurd (optLt_false_trans hcf hq2) (by simp [hb])
          · exact hall x hx
  rcases keys with _ | ⟨k, ks⟩
  · simp [minByRank] at h
  · simp only [minByRank, Option.some.injEq] at h
    rcases main ks k with ⟨hmem, hk, hall⟩
    subst h
    refine ⟨?_, ?_⟩
    · rcases hmem with h | h
      · rw [h]; simp
      · exact List.mem_cons.2 (Or.inr h)
    · intro q hq
      rcases List.mem_cons.1 hq with hq | hq
      · subst hq; exact hk
      · exact hall q hq

theorem minByRank_eq_none_iff {ms : List ((Nat × Nat) × Nat)} {keys : List (Nat × Nat)} :
    minByRank ms keys = none ↔ keys = [] := by
  rcases keys with _ | ⟨k, ks⟩ <;> simp [minByRank]

/-! ## The first maximal entry: Python `max(stats, key=stats.get)` -/

theorem maxByVal_spec {l : List ((Nat × Nat) × Nat)} {p : Nat × Nat}
    (h : maxByVal l = some p) :
    ∃ v l1 l2, l = l1 ++ (p, v) :: l2 ∧ (∀ e ∈ l1, e.2 < v) ∧ ∀ e ∈ l2, e.2 ≤ v := by
  have main : ∀ (ks : List ((Nat × Nat) × Nat)) (b : (Nat × Nat) × Nat)
      (l1 l2 : List ((Nat × Nat) × Nat)),
      (∀ e ∈ l1, e.2 < b.2) → (∀ e ∈ l2, e.2 ≤ b.2) →
      ∃ m1 m2, l1 ++ b :: (l2 ++ ks) =
          m1 ++ (ks.foldl (fun best e => if best.2 < e.2 then e else best) b) :: m2 ∧
        (∀ e ∈ m1, e.2 < (ks.foldl (fun best e => if best.2 < e.2 then e else best) b).2) ∧
        ∀ e ∈ m2, e.2 ≤ (ks.foldl (fun best e => if best.2 < e.2 then e else best) b).2 := by
    intro ks
    induction ks with
    | nil =>
      intro b l1 l2 h1 h2
      exact ⟨l1, l2, by simp, h1, h2⟩
    | cons e ks ih =>
      intro b l1 l2 h1 h2
      by_cases hc : b.2 < e.2
      · have step : ((e :: ks).foldl (fun best e => if best.2 < e.2 then e else best) b) =
            (ks.foldl (fun best e => if best.2 < e.2 then e else best) e) := by
          simp [List.foldl_cons, hc]
        rw [step]
        rcases ih e (l1 ++ b :: l2) [] (by
          intro x hx
          rcases List.mem_append.1 hx with hx | hx
          · exact lt_trans (h1 x hx) hc
          · rcases List.mem_cons.1 hx with hx | hx
            · subst hx; exact hc
            · exact lt_of_le_of_lt (h2 x hx) hc) (by simp) with ⟨m1, m2, heq, hm1, hm2⟩
        refine ⟨m1, m2, ?_, hm1, hm2⟩
        rw [← heq]
        simp
      · have hce : e.2 ≤ b.2 := by omega
        have step : ((e :: ks).foldl (fun best e => if best.2 < e.2 then e else best) b) =
            (ks.foldl (fun best e => if best.2 < e.2 then e else best) b) := by
          simp [List.foldl_cons, hc]
        rw [step]
        rcases ih b l1 (l2 ++ [e]) h1 (by
          intro x hx
          rcases List.mem_append.1 hx with hx | hx
          · exact h2 x hx
          · rcases List.mem_singleton.1 hx with hx
            subst hx; exact hce) with ⟨m1, m2, heq, hm1, hm2⟩
        refine ⟨m1, m2, ?_, hm1, hm2⟩
        rw [← heq]
        simp
  rcases l with _ | ⟨kv, rest⟩
  · simp [maxByVal] at h
  · simp only [maxByVal, Option.some.injEq] at h
    rcases main rest kv [] [] (by simp) (by simp) with ⟨m1, m2, heq, hm1, hm2⟩
    refine ⟨(rest.foldl (fun best e => if best.2 < e.2 then e else best) kv).2, m1, m2, ?_, hm1, hm2⟩
    rw [← h]
    simpa using heq

theorem maxByVal_mem {l : List ((Nat × Nat) × Nat)} {p : Nat × Nat}
    (h : maxByVal l = some p) : ∃ v, (p, v) ∈ l := by
  rcases maxByVal_spec h with ⟨v, l1, l2, heq, _, _⟩
  exact ⟨v, by rw [heq]; simp⟩

theorem maxByVal_eq_none_iff {l : List ((Nat × Nat) × Nat)} :
    maxByVal l = none ↔ l = [] := by
  rcases l with _ | ⟨kv, rest⟩ <;> simp [maxByVal]

/-! ## UTF-8 round trip -/

theorem utf8Encode_cons (c : Nat) (s : List Nat) :
    utf8Encode (c :: s) = utf8EncodeChar c ++ utf8Encode s := by
  simp [utf8Encode]

theorem utf8Encode_append (s t : List Nat) :
    utf8Encode (s ++ t) = utf8Encode s ++ utf8Encode t := by
  simp [utf8Encode]

theorem utf8Encode_flatten (ls : List (List Nat)) :
    utf8Encode ls.flatten = (ls.map utf8Encode).flatten := by
  induction ls with
  | nil => simp [utf8Encode]
  | cons s ls ih => simp [utf8Encode_append, ih]

theorem utf8DecodeReplace_encodeChar {c : Nat} (hc : ValidScalar c) (rest : List Nat) :
    utf8DecodeReplace (utf8EncodeChar c ++ rest) = c :: utf8DecodeReplace rest := by
  rcases hc with ⟨hlt, hsur⟩
  by_cases h1 : c < 128
  · have hb : utf8EncodeChar c = [c] := by simp [utf8EncodeChar, h1]
    rw [hb]
    show utf8DecodeReplace (c :: rest) = c :: utf8DecodeReplace rest
    rw [utf8DecodeReplace.eq_def]
    simp only []
    rw [if_pos h1]
  by_cases h2 : c < 2048
  · have hb : utf8EncodeChar c = [192 + c / 64, 128 + c % 64] := by
      simp [utf8EncodeChar, h1, h2]
    rw [hb]
    show utf8DecodeReplace ((192 + c / 64) :: (128 + c % 64) :: rest) = c :: utf8DecodeReplace rest
    rw [utf8DecodeReplace.eq_def]
    simp only []
    rw [if_neg (by omega), if_neg (by omega), if_pos (by omega),
      if_pos (show IsCont (128 + c % 64) from ⟨by omega, by omega⟩)]
    congr 1
    omega
  by_cases h3 : c < 65536
  · have hb : utf8EncodeChar c = [224 + c / 4096, 128 + c / 64 % 64, 128 + c % 64] := by
      simp [utf8EncodeChar, h1, h2, h3]
    rw [hb]
    show utf8DecodeReplace
        ((224 + c / 4096) :: (128 + c / 64 % 64) :: (128 + c % 64) :: rest) =
      c :: utf8DecodeReplace rest
    rw [utf8DecodeReplace.eq_def]
    simp only []
    rw [if_neg (by omega), if_neg (by omega), if_neg (by omega), if_pos (by omega)]
    have hgood : GoodB1 (224 + c / 4096) (128 + c / 64 % 64) := by
      unfold GoodB1 IsCont
      split_ifs with g1 g2 <;> omega
    rw [if_pos hgood, if_pos (show IsCont (128 + c % 64) from ⟨by omega, by omega⟩)]
    congr 1
    omega
  · have hb : utf8EncodeChar c =
        [240 + c / 262144, 128 + c / 4096 % 64, 128 + c / 64 % 64, 128 + c % 64] := by
      simp [utf8EncodeChar, h1, h2, h3]
    rw [hb]
    show utf8DecodeReplace
        ((240 + c / 262144) :: (128 + c / 4096 % 64) :: (128 + c / 64 % 64) ::
          (128 + c % 64) :: rest) = c :: utf8DecodeReplace rest
    rw [utf8DecodeReplace.eq_def]
    simp only []
    rw [if_neg (by omega), if_neg (by omega), if_neg (by omega), if_neg (by omega),
      if_pos (by omega)]
    have hgood : GoodB1 (240 + c / 262144) (128 + c / 4096 % 64) := by
      unfold GoodB1 IsCont
      split_ifs with g1 g2 g3 g4 <;> omega
    rw [if_pos hgood, if_pos (show IsCont (128 + c / 64 % 64) from ⟨by omega, by omega⟩),
      if_pos (show IsCont (128 + c % 64) from ⟨by omega, by omega⟩)]
    congr 1
    omega

theorem utf8_roundtrip {s : List Nat} (hs : ValidText s) :
    utf8DecodeReplace (utf8Encode s) = s := by
  induction s with
  | nil => simp [utf8Encode, utf8DecodeReplace]
  | cons c s ih =>
    rw [utf8Encode_cons, utf8DecodeReplace_encodeChar (hs c (by simp)),
      ih (fun x hx => hs x (by simp [hx]))]

/-! ## Pre-tokenizer coverage: the chunks concatenate back to the input -/

theorem runOf_append (p : Nat → Bool) (l : List Nat) :
    (runOf p l).1 ++ (runOf p l).2 = l := by
  induction l with
  | nil => simp [runOf]
  | cons c cs ih =>
    by_cases h : p c
    · simp only [runOf, if_pos h]
      simpa using ih
    · simp [runOf, h]

theorem runOf_pos {p : Nat → Bool} {c : Nat} (cs : List Nat) (h : p c = true) :
    runOf p (c :: cs) = (c :: (runOf p cs).1, (runOf p cs).2) := by
  simp [runOf, h]

theorem tryContraction_spec {l ch rest : List Nat}
    (h : tryContraction l = some (ch, rest)) : ch ≠ [] ∧ ch ++ rest = l := by
  unfold tryContraction at h
  split at h <;>
    first
      | (simp only [Option.some.injEq, Prod.mk.injEq] at h
         rcases h with ⟨rfl, rfl⟩
         simp)
      | simp at h

theorem runOf_some_spec {p : Nat → Bool} {m ch rest : List Nat}
    (h : some (runOf p m) = some (ch, rest)) : ch ++ rest = m := by
  simp only [Option.some.injEq] at h
  have := runOf_append p m
  rw [h] at this
  exact this

theorem runOf_some_ne_nil {p : Nat → Bool} {c : Nat} {cs ch rest : List Nat}
    (hp : p c = true) (h : some (runOf p (c :: cs)) = some (ch, rest)) : ch ≠ [] := by
  rw [runOf_pos _ hp] at h
  simp only [Option.some.injEq, Prod.mk.injEq] at h
  rw [← h.1]
  simp

theorem trySpaceRun_spec {p : Nat → Bool} {l ch rest : List Nat}
    (h : trySpaceRun p l = some (ch, rest)) : ch ≠ [] ∧ ch ++ rest = l := by
  unfold trySpaceRun at h
  split at h
  · exact absurd h (by simp)
  case _ c cs =>
    split at h
    case _ h32 =>
      split at h
      case _ x tail =>
        split at h
        case _ hpx =>
          simp only [Option.some.injEq, Prod.mk.injEq] at h
          rcases h with ⟨h1, h2⟩
          have ha := runOf_append p (x :: tail)
          refine ⟨by rw [← h1]; simp, ?_⟩
          rw [← h1, ← h2]
          simp only [List.cons_append]
          rw [ha, h32]
        case _ hpx =>
          split at h
          case _ hpc => exact ⟨runOf_some_ne_nil hpc h, runOf_some_spec h⟩
          case _ hpc => exact absurd h (by simp)
      case _ hnil =>
        split at h
        case _ hpc => exact ⟨runOf_some_ne_nil hpc h, runOf_some_spec h⟩
        case _ hpc => exact absurd h (by simp)
    case _ h32 =>
      split at h
      case _ hpc => exact ⟨runOf_some_ne_nil hpc h, runOf_some_spec h⟩
      case _ hpc => exact absurd h (by simp)

theorem trySpaceNotS_spec {isSp : Nat → Bool} {l ch rest : List Nat}
    (h : trySpaceNotS isSp l = some (ch, rest)) : ch ≠ [] ∧ ch ++ rest = l := by
  unfold trySpaceNotS at h
  split at h
  · exact absurd h (by simp)
  case _ c cs =>
    split at h
    case _ hsp =>
      rcases hrun : runOf isSp (c :: cs) with ⟨chr, rr⟩
      have hchr : chr = c :: (runOf isSp cs).1 ∧ rr = (runOf isSp cs).2 := by
        have := (runOf_pos cs hsp).symm.trans hrun
        exact ⟨(Prod.mk.injEq _ _ _ _ ▸ this.symm).1, (Prod.mk.injEq _ _ _ _ ▸ this.symm).2⟩
      have ha : chr ++ rr = c :: cs := by
        have := runOf_append isSp (c :: cs)
        rw [hrun] at this
        exact this
      simp only [hrun] at h
      split at h
      case _ =>
        simp only [Option.some.injEq, Prod.mk.injEq] at h
        refine ⟨by rw [← h.1, hchr.1]; simp, ?_⟩
        rw [← h.1, ← h.2]
        simpa using ha
      case _ =>
        split at h
        case _ hlen =>
          simp only [Option.some.injEq, Prod.mk.injEq] at h
          constructor
          · rw [← h.1]
            intro hc
            have htk : (chr.take (chr.length - 1)).length = 0 := by
              rw [hc]; rfl
            rw [List.length_take] at htk
            omega
          · rw [← h.1, ← h.2, ← List.append_assoc, List.take_append_drop]
            exact ha
        case _ hlen => exact absurd h (by simp)
    case _ hsp => exact absurd h (by simp)

theorem nextChunk_spec (cc : CharClasses) (c : Nat) (cs : List Nat) :
    (nextChunk cc (c :: cs)).1 ≠ [] ∧
      (nextChunk cc (c :: cs)).1 ++ (nextChunk cc (c :: cs)).2 = c :: cs := by
  rcases h1 : tryContraction (c :: cs) with _ | ⟨ch, rest⟩
  case _ =>
    rcases h2 : trySpaceRun cc.isL (c :: cs) with _ | ⟨ch, rest⟩
    case _ =>
      rcases h3 : trySpaceRun cc.isN (c :: cs) with _ | ⟨ch, rest⟩
      case _ =>
        rcases h4 : trySpaceRun (isOther cc) (c :: cs) with _ | ⟨ch, rest⟩
        case _ =>
          rcases h5 : trySpaceNotS cc.isSp (c :: cs) with _ | ⟨ch, rest⟩
          case _ =>
            simp only [nextChunk, h1, h2, h3, h4, h5]
            by_cases hsp : cc.isSp c
            · rw [if_pos hsp]
              have ha := runOf_append cc.isSp (c :: cs)
              rw [runOf_pos _ hsp] at ha ⊢
              simpa using ha
            · rw [if_neg hsp]
              exact ⟨by simp, by simp⟩
          case _ =>
            simp only [nextChunk, h1, h2, h3, h4, h5]
            exact trySpaceNotS_spec h5
        case _ =>
          simp only [nextChunk, h1, h2, h3, h4]
          exact trySpaceRun_spec h4
      case _ =>
        simp only [nextChunk, h1, h2, h3]
        exact trySpaceRun_spec h3
    case _ =>
      simp only [nextChunk, h1, h2]
      exact trySpaceRun_spec h2
  case _ =>
    simp only [nextChunk, h1]
    exact tryContraction_spec h1

theorem pretokenizeF_flatten (cc : CharClasses) :
    ∀ (n : Nat) (l : List Nat), l.length ≤ n → (pretokenizeF cc n l).flatten = l := by
  intro n
  induction n with
  | zero =>
    intro l hl
    rcases l with _ | ⟨c, cs⟩
    · simp [pretokenizeF]
    · simp at hl
  | succ n ih =>
    intro l hl
    rcases l with _ | ⟨c, cs⟩
    · simp [pretokenizeF]
    · rcases nextChunk_spec cc c cs with ⟨hne, happ⟩
      have hlen : (nextChunk cc (c :: cs)).2.length ≤ n := by
        have := congrArg List.length happ
        simp only [List.length_append, List.length_cons] at this
        have hpos : 0 < (nextChunk cc (c :: cs)).1.length := List.length_pos.2 hne
        simp only [List.length_cons] at hl
        omega
      simp only [pretokenizeF, List.flatten_cons]
      rw [ih _ hlen, happ]

theorem pretokenize_flatten (cc : CharClasses) (l : List Nat) :
    (pretokenize cc l).flatten = l :=
  pretokenizeF_flatten cc l.length l le_rfl

theorem mem_of_mem_pretokenize {cc : CharClasses} {l s : List Nat} {x : Nat}
    (hs : s ∈ pretokenize cc l) (hx : x ∈ s) : x ∈ l := by
  rw [← pretokenize_flatten cc l]
  exact List.mem_flatten.2 ⟨s, hs, hx⟩

/-! ## Byte bounds of the UTF-8 encoding -/

theorem utf8EncodeChar_lt {c : Nat} (hc : ValidScalar c) :
    ∀ b ∈ utf8EncodeChar c, b < 256 := by
  rcases hc with ⟨hlt, _⟩
  intro b hb
  unfold utf8EncodeChar at hb
  split_ifs at hb <;> simp at hb <;> omega

theorem utf8Encode_lt {s : List Nat} (hs : ValidText s) :
    ∀ b ∈ utf8Encode s, b < 256 := by
  intro b hb
  rcases List.mem_flatten.1 hb with ⟨bs, hbs, hb2⟩
  rcases List.mem_map.1 hbs with ⟨c, hc, rfl⟩
  exact utf8EncodeChar_lt (hs c hc) b hb2

/-! ## Training invariant -/

/-- Byte meaning of a token list under a vocabulary. -/
def bytesOf (vocab : List (List Nat)) (toks : List Nat) : List Nat :=
  (toks.map (fun t => (vocab[t]?).getD [])).flatten

/-- Invariant of the trained tokenizer state: the vocabulary is total over the
256 base ids and the minted ids, base entries are the single bytes, the rule
recorded at position `k` mints exactly id `256 + k` from two already-existing
ids, its byte span is the concatenation of its constituents' spans, and no
pair is recorded twice. -/
structure TrainedInv (st : BPEState) : Prop where
  vlen : st.vocab.length = 256 + st.merges.length
  base : ∀ i, i < 256 → st.vocab[i]? = some [i]
  ruleAt : ∀ k, (h : k < st.merges.length) →
    st.merges[k].1.1 < 256 + k ∧
    st.merges[k].1.2 < 256 + k ∧
    st.merges[k].2 = 256 + k ∧
    st.vocab[256 + k]? =
      some ((st.vocab[st.merges[k].1.1]?).getD [] ++
        (st.vocab[st.merges[k].1.2]?).getD [])
  keysNodup : (st.merges.map Prod.fst).Nodup

/-- Invariant carried through the training loop: the trained-state invariant
together with the loop-local facts about the split table. -/
structure LoopInv (wf : List (List Nat × Nat)) (st : LoopSt) : Prop where
  stInv : TrainedInv { merges := st.merges, vocab := st.vocab }
  ilen : st.iter = st.merges.length
  splitBound : ∀ s ∈ st.splits, ∀ t ∈ s, t < st.vocab.length
  noAdj : ∀ e ∈ st.merges, ∀ s ∈ st.splits, e.1 ∉ adjPairs s

theorem mem_of_adjPairs {q : Nat × Nat} {l : List Nat} (h : q ∈ adjPairs l) :
    q.1 ∈ l ∧ q.2 ∈ l := by
  induction l with
  | nil => simp [adjPairs] at h
  | cons a t ih =>
    rcases t with _ | ⟨b, rest⟩
    · simp [adjPairs] at h
    · simp only [adjPairs, List.mem_cons] at h
      rcases h with h | h
      · subst h
        exact ⟨by simp, by simp⟩
      · rcases ih h with ⟨h1, h2⟩
        exact ⟨by simp [List.mem_cons.1 h1], by simp [List.mem_cons.1 h2]⟩

theorem countFreqs_keys_subset {chunks : List (List Nat)} {x : List Nat}
    (hx : x ∈ (countFreqs chunks).map Prod.fst) : x ∈ chunks := by
  have main : ∀ (cs : List (List Nat)) (acc : List (List Nat × Nat)),
      x ∈ ((cs.foldl (fun acc c => bump acc c 1) acc).map Prod.fst) →
        x ∈ acc.map Prod.fst ∨ x ∈ cs := by
    intro cs
    induction cs with
    | nil => intro acc h; exact Or.inl h
    | cons c cs ih =>
      intro acc h
      rcases ih (bump acc c 1) h with h | h
      · rcases keys_bump_subset acc c 1 h with h | h
        · exact Or.inl h
        · exact Or.inr (by simp [h])
      · exact Or.inr (by simp [h])
  rcases main chunks [] hx with h | h
  · simp at h
  · exact h

theorem initVocab_length : initVocab.length = 256 := by simp [initVocab]

theorem initVocab_get (i : Nat) (h : i < 256) : initVocab[i]? = some [i] := by
  unfold initVocab
  rw [List.getElem?_map, List.getElem?_range h]
  rfl

/-- The invariant derived facts for any recorded rule, in membership form. -/
theorem TrainedInv.rule_mem {st : BPEState} (inv : TrainedInv st) :
    ∀ e ∈ st.merges, e.1.1 < e.2 ∧ e.1.2 < e.2 ∧ e.2 < st.vocab.length ∧
      st.vocab[e.2]? =
        some ((st.vocab[e.1.1]?).getD [] ++ (st.vocab[e.1.2]?).getD []) := by
  intro e he
  rcases List.mem_iff_getElem.1 he with ⟨k, hk, rfl⟩
  rcases inv.ruleAt k hk with ⟨h1, h2, h3, h4⟩
  rw [inv.vlen, h3]
  exact ⟨by omega, by omega, by omega, h4⟩

theorem TrainedInv.comp_lt {st : BPEState} (inv : TrainedInv st) :
    ∀ e ∈ st.merges, e.1.1 < 256 + st.merges.length ∧
      e.1.2 < 256 + st.merges.length ∧ e.2 < 256 + st.merges.length := by
  intro e he
  rcases inv.rule_mem e he with ⟨h1, h2, h3, _⟩
  rw [inv.vlen] at h3
  exact ⟨by omega, by omega, h3⟩

theorem trainStep_preserves {wf : List (List Nat × Nat)} {st st1 : LoopSt}
    (inv : LoopInv wf st) (h : trainStep wf st = some st1) : LoopInv wf st1 := by
  rcases hmax : maxByVal (pairStats wf st.splits) with _ | p
  · simp [trainStep, hmax] at h
  simp only [trainStep, hmax, Option.some.injEq] at h
  subst h
  have hvlen : st.vocab.length = 256 + st.merges.length := inv.stInv.vlen
  have hilen : st.iter = st.merges.length := inv.ilen
  have hnid : 256 + st.iter = st.vocab.length := by omega
  have hrule : ∀ k, (h : k < st.merges.length) →
      st.merges[k].1.1 < 256 + k ∧ st.merges[k].1.2 < 256 + k ∧
      st.merges[k].2 = 256 + k ∧
      st.vocab[256 + k]? =
        some ((st.vocab[st.merges[k].1.1]?).getD [] ++
          (st.vocab[st.merges[k].1.2]?).getD []) := inv.stInv.ruleAt
  have hcomp : ∀ e ∈ st.merges, e.1.1 < 256 + st.merges.length ∧
      e.1.2 < 256 + st.merges.length ∧ e.2 < 256 + st.merges.length :=
    inv.stInv.comp_lt
  have hbase : ∀ i, i < 256 → st.vocab[i]? = some [i] := inv.stInv.base
  have hnodup : (st.merges.map Prod.fst).Nodup := inv.stInv.keysNodup
  rcases maxByVal_mem hmax with ⟨v, hv⟩
  rcases pairStats_keys_subset (List.mem_map.2 ⟨(p, v), hv, rfl⟩) with ⟨s0, hs0, hadj0⟩
  have hp1 : p.1 < st.vocab.length :=
    inv.splitBound s0 hs0 p.1 (mem_of_adjPairs hadj0).1
  have hp2 : p.2 < st.vocab.length :=
    inv.splitBound s0 hs0 p.2 (mem_of_adjPairs hadj0).2
  have hpnotin : p ∉ st.merges.map Prod.fst := by
    intro hc
    rcases List.mem_map.1 hc with ⟨e, he, hep⟩
    rw [← hep] at hadj0
    exact inv.noAdj e he s0 hs0 hadj0
  have hne1 : 256 + st.iter ≠ p.1 := by omega
  have hne2 : 256 + st.iter ≠ p.2 := by omega
  refine ⟨⟨?_, ?_, ?_, ?_⟩, ?_, ?_, ?_⟩
  · dsimp only
    simp only [List.length_append, List.length_cons, List.length_nil]
    omega
  · dsimp only
    intro i hi
    have : i < st.vocab.length := by omega
    rw [List.getElem?_append_left this]
    exact hbase i hi
  · dsimp only
    intro k hk
    simp only [List.length_append, List.length_cons, List.length_nil] at hk
    by_cases hkn : k < st.merges.length
    · have hget : (st.merges ++ [(p, 256 + st.iter)])[k] = st.merges[k] := by
        rw [List.getElem_append_left hkn]
      rcases hrule k hkn with ⟨h1, h2, h3, h4⟩
      rw [hget]
      have hb1 : st.merges[k].1.1 < st.vocab.length := by omega
      have hb2 : st.merges[k].1.2 < st.vocab.length := by omega
      have hb3 : 256 + k < st.vocab.length := by omega
      rw [List.getElem?_append_left hb1, List.getElem?_append_left hb2,
        List.getElem?_append_left hb3]
      exact ⟨h1, h2, h3, h4⟩
    · have hkeq : k = st.merges.length := by omega
      subst hkeq
      have hget : (st.merges ++ [(p, 256 + st.iter)])[st.merges.length] = (p, 256 + st.iter) :=
        List.getElem_concat_length st.merges _ st.merges.length rfl (by simp)
      rw [hget]
      dsimp only
      refine ⟨by omega, by omega, by omega, ?_⟩
      have h256 : 256 + st.merges.length = st.vocab.length := by omega
      rw [h256, List.getElem?_concat_length, List.getElem?_append_left hp1,
        List.getElem?_append_left hp2]
  · dsimp only
    rw [List.map_append]
    refine List.Nodup.append hnodup (by simp) ?_
    intro x hx hx2
    simp only [List.map_cons, List.map_nil, List.mem_singleton] at hx2
    subst hx2
    exact hpnotin hx
  · dsimp only
    simp only [List.length_append, List.length_cons, List.length_nil]
    omega
  · dsimp only
    intro s1 hs1 t ht
    rcases List.mem_map.1 hs1 with ⟨s, hs, rfl⟩
    simp only [List.length_append, List.length_cons, List.length_nil]
    rcases mem_of_mem_mergePair ht with h | h
    · have := inv.splitBound s hs t h
      omega
    · omega
  · dsimp only
    intro e he s1 hs1 hadj
    rcases List.mem_map.1 hs1 with ⟨s, hs, rfl⟩
    rcases adjPairs_mergePair hne1 hne2 e.1 hadj with ⟨hmem, hne⟩ | hc | hc
    · rcases List.mem_append.1 he with he | he
      · exact inv.noAdj e he s hs hmem
      · simp only [List.mem_singleton] at he
        subst he
        exact hne rfl
    · rcases List.mem_append.1 he with he | he
      · rcases hcomp e he with ⟨hb, _, _⟩
        omega
      · simp only [List.mem_singleton] at he
        subst he
        simp only at hc
        omega
    · rcases List.mem_append.1 he with he | he
      · rcases hcomp e he with ⟨_, hb, _⟩
        omega
      · simp only [List.mem_singleton] at he
        subst he
        simp only at hc
        omega

theorem trainLoop_inv {wf : List (List Nat × Nat)} :
    ∀ (n : Nat) (st : LoopSt), LoopInv wf st → LoopInv wf (trainLoop wf n st) := by
  intro n
  induction n with
  | zero => intro st inv; exact inv
  | succ n ih =>
    intro st inv
    rcases hstep : trainStep wf st with _ | st1
    · simp only [trainLoop, hstep]
      exact inv
    · simp only [trainLoop, hstep]
      exact ih st1 (trainStep_preserves inv hstep)

theorem initState_inv :
    TrainedInv { merges := [], vocab := initVocab } := by
  refine ⟨?_, ?_, ?_, ?_⟩
  · simp [initVocab_length]
  · intro i hi
    exact initVocab_get i hi
  · intro k hk
    simp at hk
  · simp

theorem bpeTrain_inv (cc : CharClasses) {corpus : List Nat} (ts : Int)
    (hc : ValidText corpus) : TrainedInv (bpeTrain cc corpus ts) := by
  unfold bpeTrain
  split
  · exact initState_inv
  · have inv0 : LoopInv (countFreqs ((pretokenize cc corpus).map utf8Encode))
        { splits := (countFreqs ((pretokenize cc corpus).map utf8Encode)).map Prod.fst,
          merges := [], vocab := initVocab, iter := 0 } := by
      refine ⟨initState_inv, rfl, ?_, by simp⟩
      intro s hs t ht
      have hs2 := countFreqs_keys_subset hs
      rcases List.mem_map.1 hs2 with ⟨ch, hch, rfl⟩
      have hvalid : ValidText ch := fun x hx => hc x (mem_of_mem_pretokenize hch hx)
      have := utf8Encode_lt hvalid t ht
      rw [initVocab_length]
      exact this
    exact (trainLoop_inv ((ts - 256).toNat) _ inv0).stInv

/-! ## Byte meaning is preserved by encoding -/

theorem bytesOf_append (v : List (List Nat)) (t1 t2 : List Nat) :
    bytesOf v (t1 ++ t2) = bytesOf v t1 ++ bytesOf v t2 := by
  simp [bytesOf]

theorem bytesOf_bytes {v : List (List Nat)} {bs : List Nat}
    (hb : ∀ b ∈ bs, b < 256) (hv : ∀ i, i < 256 → v[i]? = some [i]) :
    bytesOf v bs = bs := by
  induction bs with
  | nil => simp [bytesOf]
  | cons b bs ih =>
    have h1 : v[b]? = some [b] := hv b (hb b (by simp))
    have h2 := ih (fun x hx => hb x (by simp [hx]))
    simp only [bytesOf, List.map_cons, List.flatten_cons] at h2 ⊢
    rw [h1, h2]
    rfl

theorem mergePair_bytesOf {v : List (List Nat)} {A B : List Nat} (toks : List Nat)
    (p : Nat × Nat) (w : Nat) :
    v[p.1]? = some A → v[p.2]? = some B → v[w]? = some (A ++ B) →
      bytesOf v (mergePair toks p w) = bytesOf v toks := by
  induction toks, p, w using mergePair.induct with
  | case1 p w a b rest hm ih =>
    intro h1 h2 h3
    have ha : v[a]? = some A := by rw [hm.1]; exact h1
    have hb : v[b]? = some B := by rw [hm.2]; exact h2
    have ihr := ih h1 h2 h3
    simp only [mergePair, if_pos hm]
    simp only [bytesOf, List.map_cons, List.flatten_cons] at ihr ⊢
    rw [ha, hb, h3, ihr]
    simp
  | case2 p w a b rest hm ih =>
    intro h1 h2 h3
    have ihr := ih h1 h2 h3
    simp only [mergePair, if_neg hm]
    simp only [bytesOf, List.map_cons, List.flatten_cons] at ihr ⊢
    rw [ihr]
  | case3 l p w hl =>
    intro h1 h2 h3
    rcases l with _ | ⟨a, _ | ⟨b, rest⟩⟩
    · simp [mergePair]
    · simp [mergePair]
    · exact absurd rfl (hl a b rest)

theorem encodeStep_some {ms : List ((Nat × Nat) × Nat)} {toks : List Nat}
    {p : Nat × Nat} {w : Nat} {toks1 : List Nat}
    (h : encodeStep ms toks = some (p, w, toks1)) :
    1 < toks.length ∧ lookupPair ms p = some w ∧ p ∈ adjPairs toks ∧
      toks1 = mergePair toks p w ∧
      minByRank ms ((getStats toks).map Prod.fst) = some p := by
  unfold encodeStep at h
  split at h
  · exact absurd h (by simp)
  case _ hlen =>
    split at h
    · exact absurd h (by simp)
    case _ p2 hmin =>
      split at h
      · exact absurd h (by simp)
      case _ v2 hlook =>
        simp only [Option.some.injEq, Prod.mk.injEq] at h
        rcases h with ⟨rfl, rfl, rfl⟩
        refine ⟨by omega, hlook, ?_, rfl, hmin⟩
        exact getStats_keys_subset (minByRank_spec hmin).1

theorem encodeChunkLoop_inv {st : BPEState} (inv : TrainedInv st) :
    ∀ (fuel : Nat) (toks : List Nat), (∀ t ∈ toks, t < st.vocab.length) →
      bytesOf st.vocab (encodeChunkLoop st.merges fuel toks) = bytesOf st.vocab toks ∧
      ∀ t ∈ encodeChunkLoop st.merges fuel toks, t < st.vocab.length := by
  intro fuel
  induction fuel with
  | zero => intro toks hb; exact ⟨rfl, hb⟩
  | succ fuel ih =>
    intro toks hb
    rcases hstep : encodeStep st.merges toks with _ | ⟨p, w, toks1⟩
    · simp only [encodeChunkLoop, hstep]
      exact ⟨by simp, hb⟩
    · simp only [encodeChunkLoop, hstep]
      rcases encodeStep_some hstep with ⟨hlen, hlook, hadj, htoks1, hmin⟩
      rcases inv.rule_mem (p, w) (lookupPair_mem hlook) with ⟨hw1, hw2, hw3, hweq⟩
      dsimp only at hw1 hw2 hw3 hweq
      have hp1lt : p.1 < st.vocab.length := by omega
      have hp2lt : p.2 < st.vocab.length := by omega
      have hva : st.vocab[p.1]? = some st.vocab[p.1] := List.getElem?_eq_getElem hp1lt
      have hvb : st.vocab[p.2]? = some st.vocab[p.2] := List.getElem?_eq_getElem hp2lt
      have hvw : st.vocab[w]? = some (st.vocab[p.1] ++ st.vocab[p.2]) := by
        have heq := hweq
        rw [hva, hvb] at heq
        simpa using heq
      have hbytes := mergePair_bytesOf toks p w hva hvb hvw
      have hmem1 : ∀ t ∈ toks1, t < st.vocab.length := by
        intro t ht
        rw [htoks1] at ht
        rcases mem_of_mem_mergePair ht with h | h
        · exact hb t h
        · omega
      rcases ih toks1 hmem1 with ⟨ihb, ihm⟩
      rw [htoks1] at ihb ihm ⊢
      exact ⟨by rw [ihb, hbytes], ihm⟩

theorem bytesOf_flatten (v : List (List Nat)) (L : List (List Nat)) :
    bytesOf v L.flatten = (L.map (bytesOf v)).flatten := by
  induction L with
  | nil => simp [bytesOf]
  | cons s L ih => simp [bytesOf_append, ih]

theorem bpeEncode_bytes {st : BPEState} (cc : CharClasses) {text : List Nat}
    (inv : TrainedInv st) (hvalid : ValidText text) :
    bytesOf st.vocab (bpeEncode cc st text) = utf8Encode text ∧
      ∀ t ∈ bpeEncode cc st text, t < st.vocab.length := by
  have hchval : ∀ ch ∈ pretokenize cc text, ValidText ch :=
    fun ch hch x hx => hvalid x (mem_of_mem_pretokenize hch hx)
  have hchunk : ∀ ch ∈ pretokenize cc text,
      ∀ b ∈ utf8Encode ch, b < st.vocab.length := by
    intro ch hch b hb
    have := utf8Encode_lt (hchval ch hch) b hb
    have hv := inv.vlen
    omega
  constructor
  · unfold bpeEncode
    rw [bytesOf_flatten, List.map_map]
    have hmapeq : (pretokenize cc text).map
        (bytesOf st.vocab ∘ fun ch => encodeChunk st.merges (utf8Encode ch)) =
        (pretokenize cc text).map utf8Encode := by
      apply List.map_congr_left
      intro ch hch
      show bytesOf st.vocab (encodeChunk st.merges (utf8Encode ch)) = utf8Encode ch
      have hlp := (encodeChunkLoop_inv inv (utf8Encode ch).length (utf8Encode ch)
        (hchunk ch hch)).1
      rw [encodeChunk, hlp]
      exact bytesOf_bytes (utf8Encode_lt (hchval ch hch)) (fun i hi => inv.base i hi)
    rw [hmapeq, ← utf8Encode_flatten, pretokenize_flatten]
  · intro t ht
    unfold bpeEncode at ht
    rcases List.mem_flatten.1 ht with ⟨out, hout, htout⟩
    rcases List.mem_map.1 hout with ⟨ch, hch, rfl⟩
    exact (encodeChunkLoop_inv inv (utf8Encode ch).length (utf8Encode ch)
      (hchunk ch hch)).2 t htout

theorem mapM_getElem {v : List (List Nat)} {ids : List Nat}
    (h : ∀ i ∈ ids, i < v.length) :
    ids.mapM (fun i => v[i]?) = some (ids.map (fun i => (v[i]?).getD [])) := by
  induction ids with
  | nil => rfl
  | cons i ids ih =>
    have hi : i < v.length := h i (by simp)
    rw [List.mapM_cons, List.getElem?_eq_getElem hi,
      ih (fun x hx => h x (by simp [hx]))]
    simp [List.getElem?_eq_getElem hi]

theorem bpeDecode_eq {st : BPEState} {ids : List Nat}
    (h : ∀ i ∈ ids, i < st.vocab.length) :
    bpeDecode st ids = some (utf8DecodeReplace (bytesOf st.vocab ids)) := by
  unfold bpeDecode
  rw [mapM_getElem h]
  rfl

/-! ## Length bounds of encoding -/

theorem encodeChunkLoop_length_le (ms : List ((Nat × Nat) × Nat)) :
    ∀ (fuel : Nat) (toks : List Nat),
      (encodeChunkLoop ms fuel toks).length ≤ toks.length := by
  intro fuel
  induction fuel with
  | zero => intro toks; exact le_rfl
  | succ fuel ih =>
    intro toks
    rcases hstep : encodeStep ms toks with _ | ⟨p, w, toks1⟩
    · simp [encodeChunkLoop, hstep]
    · simp only [encodeChunkLoop, hstep]
      rcases encodeStep_some hstep with ⟨_, _, _, htoks1, _⟩
      calc (encodeChunkLoop ms fuel toks1).length ≤ toks1.length := ih toks1
        _ ≤ toks.length := by rw [htoks1]; exact mergePair_length_le toks p w

theorem bpeEncode_length_le (cc : CharClasses) (st : BPEState) (text : List Nat) :
    (bpeEncode cc st text).length ≤ (utf8Encode text).length := by
  have main : ∀ L : List (List Nat),
      ((L.map (fun ch => encodeChunk st.merges (utf8Encode ch))).flatten).length ≤
        (utf8Encode L.flatten).length := by
    intro L
    induction L with
    | nil => simp [utf8Encode]
    | cons ch L ih =>
      simp only [List.map_cons, List.flatten_cons, List.length_append,
        List.flatten_cons, utf8Encode_append]
      have h1 : (encodeChunk st.merges (utf8Encode ch)).length ≤ (utf8Encode ch).length :=
        encodeChunkLoop_length_le st.merges (utf8Encode ch).length (utf8Encode ch)
      omega
  have := main (pretokenize cc text)
  rw [pretokenize_flatten] at this
  exact this

/-! ## The empty-merge state and the stop condition of the encode loop -/

theorem bpeTrain_le (cc : CharClasses) (corpus : List Nat) {ts : Int} (h : ts ≤ 256) :
    bpeTrain cc corpus ts = { merges := [], vocab := initVocab } := by
  simp [bpeTrain, h]

theorem encodeStep_nil_merges (toks : List Nat) : encodeStep [] toks = none := by
  unfold encodeStep
  split
  · rfl
  · rcases hmin : minByRank [] ((getStats toks).map Prod.fst) with _ | p
    · simp [hmin]
    · simp [hmin, lookupPair]

theorem encodeChunkLoop_nil_merges :
    ∀ (fuel : Nat) (toks : List Nat), encodeChunkLoop [] fuel toks = toks := by
  intro fuel
  induction fuel with
  | zero => intro toks; rfl
  | succ fuel ih => intro toks; simp [encodeChunkLoop, encodeStep_nil_merges, ih]

theorem bpeEncode_nil_merges (cc : CharClasses) (vb : List (List Nat)) (text : List Nat) :
    bpeEncode cc { merges := [], vocab := vb } text = utf8Encode text := by
  unfold bpeEncode
  dsimp only
  have : (pretokenize cc text).map
      (fun ch => encodeChunk [] (utf8Encode ch)) = (pretokenize cc text).map utf8Encode := by
    apply List.map_congr_left
    intro ch hch
    exact encodeChunkLoop_nil_merges (utf8Encode ch).length (utf8Encode ch)
  rw [this, ← utf8Encode_flatten, pretokenize_flatten]

theorem adjPairs_ne_nil_of_len (toks : List Nat) (h : 1 < toks.length) :
    (getStats toks).map Prod.fst ≠ [] := by
  rcases toks with _ | ⟨a, _ | ⟨b, rest⟩⟩
  · simp at h
  · simp at h
  · have : (a, b) ∈ adjPairs (a :: b :: rest) := by simp [adjPairs]
    exact List.ne_nil_of_mem (mem_getStats_keys this)

theorem encodeStep_eq_none_iff (ms : List ((Nat × Nat) × Nat)) (toks : List Nat) :
    encodeStep ms toks = none ↔
      toks.length ≤ 1 ∨ ∀ q ∈ adjPairs toks, lookupPair ms q = none := by
  by_cases hlen : toks.length ≤ 1
  · constructor
    · intro _; exact Or.inl hlen
    · intro _; simp [encodeStep, hlen]
  · have hkeys := adjPairs_ne_nil_of_len toks (by omega)
    rcases hmin : minByRank ms ((getStats toks).map Prod.fst) with _ | m
    · exact absurd (minByRank_eq_none_iff.1 hmin) hkeys
    rcases minByRank_spec hmin with ⟨hmem, hall⟩
    constructor
    · intro hnone
      refine Or.inr fun q hq => ?_
      unfold encodeStep at hnone
      rw [if_neg hlen, hmin] at hnone
      have hnone2 : (match lookupPair ms m with
          | none => (none : Option ((Nat × Nat) × Nat × List Nat))
          | some v => some (m, v, mergePair toks m v)) = none := hnone
      rcases hlook : lookupPair ms m with _ | w
      · rcases hq2 : lookupPair ms q with _ | u
        · rfl
        · have hq3 := hall q (mem_getStats_keys hq)
          rw [hq2, hlook] at hq3
          simp [optLt] at hq3
      · rw [hlook] at hnone2
        simp at hnone2
    · intro hor
      rcases hor with h | hall2
      · exact absurd h hlen
      · have hmadj : m ∈ adjPairs toks := getStats_keys_subset hmem
        simp only [encodeStep, if_neg hlen, hmin, hall2 m hmadj]

/-! ## Counting the merges a training run records -/

theorem trainStep_shape {wf : List (List Nat × Nat)} {st st1 : LoopSt}
    (h : trainStep wf st = some st1) :
    ∃ p, maxByVal (pairStats wf st.splits) = some p ∧
      st1.splits = st.splits.map (fun s => mergePair s p (256 + st.iter)) ∧
      st1.merges = st.merges ++ [(p, 256 + st.iter)] ∧
      st1.vocab.length = st.vocab.length + 1 ∧
      st1.iter = st.iter + 1 := by
  rcases hmax : maxByVal (pairStats wf st.splits) with _ | p
  · simp [trainStep, hmax] at h
  simp only [trainStep, hmax, Option.some.injEq] at h
  subst h
  exact ⟨p, rfl, rfl, rfl, by simp, rfl⟩

theorem trainLoop_stuck {wf : List (List Nat × Nat)} {st : LoopSt}
    (h : trainStep wf st = none) : ∀ n, trainLoop wf n st = st := by
  intro n
  cases n with
  | zero => rfl
  | succ n => simp [trainLoop, h]

theorem trainLoop_comp (wf : List (List Nat × Nat)) :
    ∀ (a b : Nat) (st : LoopSt),
      trainLoop wf (a + b) st = trainLoop wf b (trainLoop wf a st) := by
  intro a
  induction a with
  | zero =>
    intro b st
    rw [Nat.zero_add]
    rfl
  | succ a ih =>
    intro b st
    rw [Nat.succ_add]
    rcases hstep : trainStep wf st with _ | st1
    · rw [trainLoop_stuck hstep, trainLoop_stuck hstep, trainLoop_stuck hstep]
    · show trainLoop wf (a + b + 1) st = _
      have e1 : trainLoop wf (a + b + 1) st = trainLoop wf (a + b) st1 := by
        simp [trainLoop, hstep]
      have e2 : trainLoop wf (a + 1) st = trainLoop wf a st1 := by
        simp [trainLoop, hstep]
      rw [e1, e2, ih b st1]

theorem trainLoop_merges_le (wf : List (List Nat × Nat)) :
    ∀ (n : Nat) (st : LoopSt),
      (trainLoop wf n st).merges.length ≤ st.merges.length + n := by
  intro n
  induction n with
  | zero => intro st; exact Nat.le_refl _
  | succ n ih =>
    intro st
    rcases hstep : trainStep wf st with _ | st1
    · simp [trainLoop, hstep]
    · simp only [trainLoop, hstep]
      rcases trainStep_shape hstep with ⟨p, _, _, hm, _, _⟩
      have := ih st1
      rw [hm] at this
      simp only [List.length_append, List.length_cons, List.length_nil] at this
      omega

theorem trainLoop_merges_ge (wf : List (List Nat × Nat)) :
    ∀ (n : Nat) (st : LoopSt),
      st.merges.length ≤ (trainLoop wf n st).merges.length := by
  intro n
  induction n with
  | zero => intro st; exact Nat.le_refl _
  | succ n ih =>
    intro st
    rcases hstep : trainStep wf st with _ | st1
    · simp [trainLoop, hstep]
    · simp only [trainLoop, hstep]
      rcases trainStep_shape hstep with ⟨p, _, _, hm, _, _⟩
      have := ih st1
      rw [hm] at this
      simp only [List.length_append, List.length_cons, List.length_nil] at this
      omega

theorem totalSize_map_le (splits : List (List Nat)) (p : Nat × Nat) (w : Nat) :
    totalSize (splits.map (fun s => mergePair s p w)) ≤ totalSize splits := by
  induction splits with
  | nil => simp [totalSize]
  | cons s rest ih =>
    simp only [totalSize, List.map_cons, List.sum_cons] at ih ⊢
    have := mergePair_length_le s p w
    omega

theorem totalSize_map_lt {splits : List (List Nat)} {s0 : List Nat} {p : Nat × Nat}
    (w : Nat) (hs0 : s0 ∈ splits) (hadj : p ∈ adjPairs s0) :
    totalSize (splits.map (fun s => mergePair s p w)) < totalSize splits := by
  induction splits with
  | nil => simp at hs0
  | cons s rest ih =>
    simp only [totalSize, List.map_cons, List.sum_cons] at ih ⊢
    rcases List.mem_cons.1 hs0 with h | h
    · subst h
      have h1 := mergePair_length_lt s0 p w hadj
      have h2 := totalSize_map_le rest p w
      simp only [totalSize] at h2
      omega
    · have h1 := mergePair_length_le s p w
      have h2 := ih h
      omega

theorem trainStep_size {wf : List (List Nat × Nat)} {st st1 : LoopSt}
    (h : trainStep wf st = some st1) :
    totalSize st1.splits + 1 ≤ totalSize st.splits := by
  rcases trainStep_shape h with ⟨p, hmax, hsplits, _, _, _⟩
  rcases maxByVal_mem hmax with ⟨v, hv⟩
  rcases pairStats_keys_subset (List.mem_map.2 ⟨(p, v), hv, rfl⟩) with ⟨s0, hs0, hadj⟩
  dsimp only at hadj
  have := totalSize_map_lt (256 + st.iter) hs0 hadj
  rw [hsplits]
  omega

theorem trainLoop_cases (wf : List (List Nat × Nat)) :
    ∀ (n : Nat) (st : LoopSt),
      ((trainLoop wf n st).merges.length = st.merges.length + n ∧
        totalSize (trainLoop wf n st).splits + n ≤ totalSize st.splits) ∨
      trainStep wf (trainLoop wf n st) = none := by
  intro n
  induction n with
  | zero =>
    intro st
    refine Or.inl ⟨rfl, ?_⟩
    show totalSize st.splits + 0 ≤ totalSize st.splits
    omega
  | succ n ih =>
    intro st
    rcases hstep : trainStep wf st with _ | st1
    · rw [trainLoop_stuck hstep]
      exact Or.inr hstep
    · have hred : trainLoop wf (n + 1) st = trainLoop wf n st1 := by
        simp [trainLoop, hstep]
      rw [hred]
      rcases ih st1 with ⟨hlen, hsize⟩ | hhalt
      · refine Or.inl ⟨?_, ?_⟩
        · rcases trainStep_shape hstep with ⟨p, _, _, hm, _, _⟩
          rw [hlen, hm]
          simp only [List.length_append, List.length_cons, List.length_nil]
          omega
        · have := trainStep_size hstep
          omega
      · exact Or.inr hhalt

theorem trainLoop_halt_big (wf : List (List Nat × Nat)) (st : LoopSt) :
    trainStep wf (trainLoop wf (totalSize st.splits + 1) st) = none := by
  rcases trainLoop_cases wf (totalSize st.splits + 1) st with ⟨hlen, hsize⟩ | h
  · omega
  · exact h

theorem trainLoop_count {wf : List (List Nat × Nat)} {st0 : LoopSt}
    (h0 : st0.merges.length = 0) (n : Nat) :
    (trainLoop wf n st0).merges.length =
      min n ((trainLoop wf (totalSize st0.splits + 1) st0).merges.length) := by
  have hhaltS := trainLoop_halt_big wf st0
  rcases trainLoop_cases wf n st0 with ⟨hlen, _⟩ | hhalt
  · by_cases hns : n ≤ totalSize st0.splits + 1
    · have hcomp := trainLoop_comp wf n (totalSize st0.splits + 1 - n) st0
      have heq : n + (totalSize st0.splits + 1 - n) = totalSize st0.splits + 1 := by omega
      rw [heq] at hcomp
      have hge := trainLoop_merges_ge wf (totalSize st0.splits + 1 - n) (trainLoop wf n st0)
      rw [← hcomp] at hge
      omega
    · have hcomp := trainLoop_comp wf (totalSize st0.splits + 1)
        (n - (totalSize st0.splits + 1)) st0
      have heq : totalSize st0.splits + 1 + (n - (totalSize st0.splits + 1)) = n := by omega
      rw [heq, trainLoop_stuck hhaltS] at hcomp
      have havail : (trainLoop wf (totalSize st0.splits + 1) st0).merges.length =
          (trainLoop wf n st0).merges.length := by rw [hcomp]
      omega
  · have havail : (trainLoop wf (totalSize st0.splits + 1) st0).merges.length =
        (trainLoop wf n st0).merges.length := by
      by_cases hns : n ≤ totalSize st0.splits + 1
      · have hcomp := trainLoop_comp wf n (totalSize st0.splits + 1 - n) st0
        have heq : n + (totalSize st0.splits + 1 - n) = totalSize st0.splits + 1 := by omega
        rw [heq] at hcomp
        rw [hcomp, trainLoop_stuck hhalt]
      · have hcomp := trainLoop_comp wf (totalSize st0.splits + 1)
          (n - (totalSize st0.splits + 1)) st0
        have heq : totalSize st0.splits + 1 + (n - (totalSize st0.splits + 1)) = n := by omega
        rw [heq, trainLoop_stuck hhaltS] at hcomp
        rw [hcomp]
    have hle := trainLoop_merges_le wf n st0
    omega

theorem trainLoop_vocab_len (wf : List (List Nat × Nat)) :
    ∀ (n : Nat) (st : LoopSt),
      (trainLoop wf n st).vocab.length + st.merges.length =
        st.vocab.length + (trainLoop wf n st).merges.length := by
  intro n
  induction n with
  | zero =>
    intro st
    show st.vocab.length + st.merges.length = st.vocab.length + st.merges.length
    rfl
  | succ n ih =>
    intro st
    rcases hstep : trainStep wf st with _ | st1
    · simp [trainLoop, hstep]
    · have hred : trainLoop wf (n + 1) st = trainLoop wf n st1 := by
        simp [trainLoop, hstep]
      rw [hred]
      rcases trainStep_shape hstep with ⟨p, _, _, hm, hv, _⟩
      have := ih st1
      rw [hm, hv] at this
      simp only [List.length_append, List.length_cons, List.length_nil] at this
      omega

/-! ## The claims -/

/-- C1: for every text encodable in UTF-8 and every trained state of the core
pre-tokenizing tokenizer — trained on any corpus of Unicode scalar values with
any integer target size, which includes the empty-merge state reached for
targets of at most 256 — `decode(encode(text))` returns exactly `text`. -/
theorem C1_roundtrip (cc : CharClasses) (corpus : List Nat) (ts : Int)
    (text : List Nat) (hcorpus : ValidText corpus) (htext : ValidText text) :
    bpeDecode (bpeTrain cc corpus ts) (bpeEncode cc (bpeTrain cc corpus ts) text) =
      some text := by
  have inv := bpeTrain_inv cc ts hcorpus
  rcases bpeEncode_bytes cc inv htext with ⟨hbytes, hmem⟩
  rw [bpeDecode_eq hmem, hbytes, utf8_roundtrip htext]

/-- Witness for C1 at a concrete corpus, target size and text. -/
theorem C1_roundtrip_witness :
    ValidText [97, 98, 97, 98] ∧ ValidText [104, 105] ∧
      bpeDecode (bpeTrain asciiCC [97, 98, 97, 98] 258)
        (bpeEncode asciiCC (bpeTrain asciiCC [97, 98, 97, 98] 258) [104, 105]) =
        some [104, 105] :=
  ⟨by decide, by decide,
    C1_roundtrip asciiCC [97, 98, 97, 98] 258 [104, 105] (by decide) (by decide)⟩

/-- C2 counterexample: training on "baab" (bytes 98 97 97 98) with target 257,
the first iteration's pair statistics give frequency 1 — the maximum — to all
three pairs (98,97), (97,97) and (97,98), yet the recorded merge is
((98,97), 256): not the lexicographically smallest tied pair, which is
(97,97).  The selection is Python `max` over the dict, which keeps the first
key in insertion order on ties. -/
theorem C2_counterexample :
    (bpeTrain asciiCC [98, 97, 97, 98] 257).merges = [((98, 97), 256)] ∧
      ((97, 97), 1) ∈ pairStats
        (countFreqs ((pretokenize asciiCC [98, 97, 97, 98]).map utf8Encode))
        ((countFreqs ((pretokenize asciiCC [98, 97, 97, 98]).map utf8Encode)).map Prod.fst) ∧
      ((98, 97), 1) ∈ pairStats
        (countFreqs ((pretokenize asciiCC [98, 97, 97, 98]).map utf8Encode))
        ((countFreqs ((pretokenize asciiCC [98, 97, 97, 98]).map utf8Encode)).map Prod.fst) ∧
      (∀ e ∈ pairStats
        (countFreqs ((pretokenize asciiCC [98, 97, 97, 98]).map utf8Encode))
        ((countFreqs ((pretokenize asciiCC [98, 97, 97, 98]).map utf8Encode)).map Prod.fst),
        e.2 ≤ 1) ∧
      ¬(98 < 97 ∨ (98 = 97 ∧ 97 ≤ 97)) := by
  decide

/-- C2 amended: in every training iteration the selected pair is the first
pair, in first-encounter (insertion) order of the pair-statistics table, that
attains the maximum frequency; the chosen merge is therefore a deterministic
function of the ordered pair-frequency table. -/
theorem C2_first_max_selected {wf : List (List Nat × Nat)} {st st1 : LoopSt}
    (h : trainStep wf st = some st1) :
    ∃ p v l1 l2, st1.merges = st.merges ++ [(p, 256 + st.iter)] ∧
      pairStats wf st.splits = l1 ++ (p, v) :: l2 ∧
      (∀ e ∈ l1, e.2 < v) ∧ (∀ e ∈ l2, e.2 ≤ v) := by
  rcases trainStep_shape h with ⟨p, hmax, _, hm, _, _⟩
  rcases maxByVal_spec hmax with ⟨v, l1, l2, heq, h1, h2⟩
  exact ⟨p, v, l1, l2, hm, heq, h1, h2⟩

/-- Witness for C2 (amended) at a concrete one-word table. -/
theorem C2_first_max_selected_witness :
    ∃ p v l1 l2,
      (⟨[[256]], [((97, 98), 256)], initVocab ++ [[97, 98]], 1⟩ : LoopSt).merges =
        (⟨[[97, 98]], [], initVocab, 0⟩ : LoopSt).merges ++
          [(p, 256 + (⟨[[97, 98]], [], initVocab, 0⟩ : LoopSt).iter)] ∧
      pairStats [([97, 98], 1)] (⟨[[97, 98]], [], initVocab, 0⟩ : LoopSt).splits =
        l1 ++ (p, v) :: l2 ∧
      (∀ e ∈ l1, e.2 < v) ∧ (∀ e ∈ l2, e.2 ≤ v) :=
  C2_first_max_selected (by decide)

/-- C3: for a trained state, one step of the per-chunk encode loop stops
exactly when fewer than two ids remain or no present pair has a rule; when it
fires it merges a present pair that has a rule, of minimal rule id among all
present pairs with rules — so a higher-id rule is never applied while a
lower-id one is applicable — and replaces all its occurrences. -/
theorem C3_rank_consistency (cc : CharClasses) (corpus : List Nat) (ts : Int)
    (hcorpus : ValidText corpus) (toks : List Nat) :
    (encodeStep (bpeTrain cc corpus ts).merges toks = none ↔
      toks.length ≤ 1 ∨
        ∀ q ∈ adjPairs toks, lookupPair (bpeTrain cc corpus ts).merges q = none) ∧
    ∀ p w toks1, encodeStep (bpeTrain cc corpus ts).merges toks = some (p, w, toks1) →
      p ∈ adjPairs toks ∧ lookupPair (bpeTrain cc corpus ts).merges p = some w ∧
      (∀ q ∈ adjPairs toks, ∀ u,
        lookupPair (bpeTrain cc corpus ts).merges q = some u → w ≤ u) ∧
      toks1 = mergePair toks p w ∧ p ∉ adjPairs toks1 := by
  refine ⟨encodeStep_eq_none_iff _ toks, ?_⟩
  intro p w toks1 hstep
  rcases encodeStep_some hstep with ⟨hlen, hlook, hadj, htoks1, hmin⟩
  have inv := bpeTrain_inv cc ts hcorpus
  rcases inv.rule_mem (p, w) (lookupPair_mem hlook) with ⟨hw1, hw2, _, _⟩
  dsimp only at hw1 hw2
  refine ⟨hadj, hlook, ?_, htoks1, ?_⟩
  · intro q hq u hu
    have hopt := (minByRank_spec hmin).2 q (mem_getStats_keys hq)
    rw [hu, hlook] at hopt
    simp [optLt] at hopt
    omega
  · rw [htoks1]
    exact not_mem_adjPairs_mergePair (by omega) (by omega)

/-- Witness for C3: the state trained on "abab" applies its only rule to the
chunk tokens 97 98 97, merging every occurrence of (97,98). -/
theorem C3_rank_consistency_witness :
    ValidText [97, 98, 97, 98] ∧
      ((97, 98) ∈ adjPairs [97, 98, 97] ∧
        lookupPair (bpeTrain asciiCC [97, 98, 97, 98] 257).merges (97, 98) = some 256 ∧
        (∀ q ∈ adjPairs [97, 98, 97], ∀ u,
          lookupPair (bpeTrain asciiCC [97, 98, 97, 98] 257).merges q = some u →
            256 ≤ u) ∧
        [256, 97] = mergePair [97, 98, 97] (97, 98) 256 ∧
        (97, 98) ∉ adjPairs [256, 97]) :=
  ⟨by decide,
    (C3_rank_consistency asciiCC [97, 98, 97, 98] 257 (by decide) [97, 98, 97]).2
      (97, 98) 256 [256, 97] (by decide)⟩

/-- C4 counterexample: on the corpus "ab" with target size 0 the tokenizer
records no merges, but the claimed formula min(target - 256, available),
read over the integers the target is drawn from, gives min(-256, 1) = -256;
the formula fails for every target below 256. -/
theorem C4_counterexample :
    ¬(((bpeTrain asciiCC [97, 98] 0).merges.length : Int) =
      min ((0 : Int) - 256) ((availMerges asciiCC [97, 98] : Int))) := by
  intro h
  have h1 : (bpeTrain asciiCC [97, 98] 0).merges.length = 0 := by decide
  have h2 : availMerges asciiCC [97, 98] = 1 := by decide
  rw [h1, h2] at h
  omega

/-- C4 amended: after training, the number of recorded merges equals
min(max(target_vocab_size - 256, 0), maximum pairs available) — the merge
budget clamps at zero for targets of at most 256 instead of going negative —
and the vocabulary size is 256 plus the number of merges. -/
theorem C4_merge_count (cc : CharClasses) (corpus : List Nat) (ts : Int) :
    (bpeTrain cc corpus ts).merges.length =
      min (ts - 256).toNat (availMerges cc corpus) ∧
    (bpeTrain cc corpus ts).vocab.length =
      256 + (bpeTrain cc corpus ts).merges.length := by
  by_cases h : ts ≤ 256
  · rw [bpeTrain_le cc corpus h]
    have hts : (ts - 256).toNat = 0 := by omega
    rw [hts]
    exact ⟨by simp, by simp [initVocab_length]⟩
  · unfold bpeTrain availMerges
    rw [if_neg h]
    dsimp only
    constructor
    · refine trainLoop_count ?_ ((ts - 256).toNat)
      rfl
    · have hv := trainLoop_vocab_len (countFreqs ((pretokenize cc corpus).map utf8Encode))
        ((ts - 256).toNat)
        ⟨(countFreqs ((pretokenize cc corpus).map utf8Encode)).map Prod.fst, [], initVocab, 0⟩
      have h256 : initVocab.length = 256 := initVocab_length
      dsimp only at hv
      simp only [List.length_nil] at hv
      omega

/-- C5: for every recorded rule (a,b) -> v of a trained state, the vocabulary
satisfies vocab[v] = vocab[a] ++ vocab[b]; the table is total over all ids
ever produced (its length is 256 plus the number of merges) and entries
0 to 255 are the unchanged single-byte seeds. -/
theorem C5_vocab_concat (cc : CharClasses) (corpus : List Nat) (ts : Int)
    (hcorpus : ValidText corpus) :
    (∀ e ∈ (bpeTrain cc corpus ts).merges, ∃ va vb,
      (bpeTrain cc corpus ts).vocab[e.1.1]? = some va ∧
      (bpeTrain cc corpus ts).vocab[e.1.2]? = some vb ∧
      (bpeTrain cc corpus ts).vocab[e.2]? = some (va ++ vb)) ∧
    (bpeTrain cc corpus ts).vocab.length =
      256 + (bpeTrain cc corpus ts).merges.length ∧
    ∀ i, i < 256 → (bpeTrain cc corpus ts).vocab[i]? = some [i] := by
  have inv := bpeTrain_inv cc ts hcorpus
  refine ⟨?_, inv.vlen, inv.base⟩
  intro e he
  rcases inv.rule_mem e he with ⟨h1, h2, h3, h4⟩
  have hb1 : e.1.1 < (bpeTrain cc corpus ts).vocab.length := by omega
  have hb2 : e.1.2 < (bpeTrain cc corpus ts).vocab.length := by omega
  have ha : (bpeTrain cc corpus ts).vocab[e.1.1]? =
      some (bpeTrain cc corpus ts).vocab[e.1.1] := List.getElem?_eq_getElem hb1
  have hb : (bpeTrain cc corpus ts).vocab[e.1.2]? =
      some (bpeTrain cc corpus ts).vocab[e.1.2] := List.getElem?_eq_getElem hb2
  refine ⟨(bpeTrain cc corpus ts).vocab[e.1.1], (bpeTrain cc corpus ts).vocab[e.1.2],
    ha, hb, ?_⟩
  rw [ha, hb] at h4
  simpa using h4

/-- Witness for C5: the first rule trained on "abab". -/
theorem C5_vocab_concat_witness :
    ValidText [97, 98, 97, 98] ∧
      (∃ va vb,
        (bpeTrain asciiCC [97, 98, 97, 98] 258).vocab[(((97, 98), 256) : (Nat × Nat) × Nat).1.1]? = some va ∧
        (bpeTrain asciiCC [97, 98, 97, 98] 258).vocab[(((97, 98), 256) : (Nat × Nat) × Nat).1.2]? = some vb ∧
        (bpeTrain asciiCC [97, 98, 97, 98] 258).vocab[(((97, 98), 256) : (Nat × Nat) × Nat).2]? = some (va ++ vb)) :=
  ⟨by decide,
    (C5_vocab_concat asciiCC [97, 98, 97, 98] 258 (by decide)).1 ((97, 98), 256) (by decide)⟩

/-- C6: decode fails exactly when some id in the input is absent from the
vocabulary table — it is never silently skipped or zero-filled — and never
because the reassembled byte sequence is invalid UTF-8: for example the lone
invalid byte 255 decodes to the replacement marker U+FFFD instead of failing. -/
theorem C6_decode_errors (st : BPEState) (ids : List Nat) :
    (bpeDecode st ids = none ↔ ∃ i ∈ ids, st.vocab[i]? = none) ∧
      bpeDecode { merges := [], vocab := initVocab } [255] = some [65533] := by
  constructor
  · have hmain : ∀ l : List Nat,
        (l.mapM (fun i => st.vocab[i]?) = none ↔ ∃ i ∈ l, st.vocab[i]? = none) := by
      intro l
      induction l with
      | nil =>
        constructor
        · intro hc
          exact absurd hc (by rw [show ([] : List Nat).mapM (fun i => st.vocab[i]?) =
            some [] from rfl]; simp)
        · intro ⟨i, hi, _⟩
          simp at hi
      | cons i l ih =>
        rw [List.mapM_cons]
        rcases hv : st.vocab[i]? with _ | s
        · constructor
          · intro _
            exact ⟨i, by simp, hv⟩
          · intro _
            simp
        · rcases hm : l.mapM (fun i => st.vocab[i]?) with _ | spans
          · constructor
            · intro _
              rcases ih.1 hm with ⟨j, hj, hjn⟩
              exact ⟨j, by simp [hj], hjn⟩
            · intro _
              simp [hm]
          · constructor
            · intro hc
              simp at hc
            · intro ⟨j, hj, hjn⟩
              rcases List.mem_cons.1 hj with rfl | hj2
              · rw [hjn] at hv
                simp at hv
              · have hcontra := ih.2 ⟨j, hj2, hjn⟩
                rw [hcontra] at hm
                simp at hm
    unfold bpeDecode
    rcases hm : ids.mapM (fun i => st.vocab[i]?) with _ | spans
    · simpa using (hmain ids).1 hm
    · simp only []
      constructor
      · intro hc
        simp at hc
      · intro hex
        rw [(hmain ids).2 hex] at hm
        simp at hm
  · decide

/-- C7: a target vocabulary size of at most 256 performs zero training
iterations without error, the merge table stays empty, encode returns exactly
the raw UTF-8 byte values, and decode of those ids returns the text. -/
theorem C7_small_target (cc : CharClasses) (corpus : List Nat) (ts : Int)
    (text : List Nat) (hts : ts ≤ 256) (htext : ValidText text) :
    bpeTrain cc corpus ts = { merges := [], vocab := initVocab } ∧
    bpeEncode cc (bpeTrain cc corpus ts) text = utf8Encode text ∧
    bpeDecode (bpeTrain cc corpus ts) (bpeEncode cc (bpeTrain cc corpus ts) text) =
      some text := by
  have htr := bpeTrain_le cc corpus hts
  refine ⟨htr, ?_, ?_⟩
  · rw [htr, bpeEncode_nil_merges]
  · rw [htr, bpeEncode_nil_merges]
    have hmem : ∀ i ∈ utf8Encode text,
        i < ({ merges := [], vocab := initVocab } : BPEState).vocab.length := by
      intro i hi
      have h1 := utf8Encode_lt htext i hi
      have h2 : ({ merges := [], vocab := initVocab } : BPEState).vocab.length = 256 := by
        simp [initVocab_length]
      omega
    rw [bpeDecode_eq hmem]
    have hbytes : bytesOf ({ merges := [], vocab := initVocab } : BPEState).vocab
        (utf8Encode text) = utf8Encode text :=
      bytesOf_bytes (utf8Encode_lt htext) (fun i hi => initVocab_get i hi)
    rw [hbytes, utf8_roundtrip htext]

/-- Witness for C7 at a concrete target size and text. -/
theorem C7_small_target_witness :
    (100 : Int) ≤ 256 ∧ ValidText [104, 105] ∧
      (bpeTrain asciiCC [97, 98] 100 = { merges := [], vocab := initVocab } ∧
        bpeEncode asciiCC (bpeTrain asciiCC [97, 98] 100) [104, 105] =
          utf8Encode [104, 105] ∧
        bpeDecode (bpeTrain asciiCC [97, 98] 100)
          (bpeEncode asciiCC (bpeTrain asciiCC [97, 98] 100) [104, 105]) =
          some [104, 105]) :=
  ⟨by decide, by decide, C7_small_target asciiCC [97, 98] 100 [104, 105] (by decide) (by decide)⟩

/-- C8: for every text and every trained state the number of produced token
ids is at most the number of UTF-8 bytes of the text. -/
theorem C8_compression (cc : CharClasses) (corpus : List Nat) (ts : Int)
    (text : List Nat) :
    (bpeEncode cc (bpeTrain cc corpus ts) text).length ≤ (utf8Encode text).length :=
  bpeEncode_length_le cc (bpeTrain cc corpus ts) text

/-- C9: in a trained merge table no pair is recorded twice, every rule's two
constituent ids are below 256 + k when the rule is recorded at position k —
that is, they already exist in the vocabulary, whose size is then 256 + k —
and the minted ids are exactly 256, 257, ... in insertion order, so a rule's
insertion order is recoverable as id - 256. -/
theorem C9_merge_table_wellformed (cc : CharClasses) (corpus : List Nat) (ts : Int)
    (hcorpus : ValidText corpus) :
    ((bpeTrain cc corpus ts).merges.map Prod.fst).Nodup ∧
    (bpeTrain cc corpus ts).merges.map Prod.snd =
      List.range' 256 (bpeTrain cc corpus ts).merges.length ∧
    ∀ k, (h : k < (bpeTrain cc corpus ts).merges.length) →
      (bpeTrain cc corpus ts).merges[k].1.1 < 256 + k ∧
      (bpeTrain cc corpus ts).merges[k].1.2 < 256 + k ∧
      (bpeTrain cc corpus ts).merges[k].2 = 256 + k := by
  have inv := bpeTrain_inv cc ts hcorpus
  refine ⟨inv.keysNodup, ?_, fun k h =>
    ⟨(inv.ruleAt k h).1, (inv.ruleAt k h).2.1, (inv.ruleAt k h).2.2.1⟩⟩
  apply List.ext_getElem
  · simp
  · intro i h1 h2
    rw [List.getElem_map]
    simp only [List.getElem_range']
    have h3 : i < (bpeTrain cc corpus ts).merges.length := by simpa using h1
    have := (inv.ruleAt i h3).2.2.1
    omega

/-- Witness for C9: the state trained on "abab" with two minted rules. -/
theorem C9_merge_table_wellformed_witness :
    ValidText [97, 98, 97, 98] ∧
      ((bpeTrain asciiCC [97, 98, 97, 98] 258).merges.map Prod.fst).Nodup ∧
      (bpeTrain asciiCC [97, 98, 97, 98] 258).merges.map Prod.snd =
        List.range' 256 (bpeTrain asciiCC [97, 98, 97, 98] 258).merges.length ∧
      ((bpeTrain asciiCC [97, 98, 97, 98] 258).merges[0].1.1 < 256 + 0 ∧
        (bpeTrain asciiCC [97, 98, 97, 98] 258).merges[0].1.2 < 256 + 0 ∧
        (bpeTrain asciiCC [97, 98, 97, 98] 258).merges[0].2 = 256 + 0) :=
  ⟨by decide,
    (C9_merge_table_wellformed asciiCC [97, 98, 97, 98] 258 (by decide)).1,
    (C9_merge_table_wellformed asciiCC [97, 98, 97, 98] 258 (by decide)).2.1,
    (C9_merge_table_wellformed asciiCC [97, 98, 97, 98] 258 (by decide)).2.2 0 (by decide)⟩

/-- C10: the stream-only encode (tokeniser.py) is not total at the boundary:
for every input whose UTF-8 encoding has fewer than two bytes the adjacent
pair statistics are empty, so the Python `min` raises `ValueError` — modelled
here as `none` — instead of returning the raw byte values.  The core variant
guards its loop with `len(tokens) > 1`, which is the intended behavior. -/
theorem C10_stream_boundary (ms : List ((Nat × Nat) × Nat)) (text : List Nat)
    (h : (utf8Encode text).length ≤ 1) : sEncode ms text = none := by
  unfold sEncode
  have hadj : adjPairs (utf8Encode text) = [] := (adjPairs_eq_nil_iff _).2 h
  have hstats : getStats (utf8Encode text) = [] := by
    unfold getStats
    rw [hadj]
    rfl
  simp [sEncodeLoop, hstats, minByRank]

/-- Witness for C10: the empty string raises in the stream encoder. -/
theorem C10_stream_boundary_witness :
    (utf8Encode []).length ≤ 1 ∧ sEncode [] [] = none :=
  ⟨by decide, C10_stream_boundary [] [] (by decide)⟩

end BPE
